import Mathlib

/-
Shallow embedding of the rtx-chat conversational agent runtime, covering
the components referenced by the specification claims:

  * app/context_manager.py   -- token estimation (estimate_tokens,
    count_message_tokens)
  * app/neo4j_client.py      -- relationship-type sanitization in
    save_memory, entity canonicalization (_canonicalize_person), hybrid
    retrieval (_detect_entity_hybrid, _get_entity_subgraph,
    get_context_aware_memories)
  * app/tools/memory.py      -- duplicate guard (check_duplicate,
    add_fact, add_preference), delete_memory
  * app/agent.py             -- the langgraph tool loop driven by
    ConversationManager.stream_response with
    recursion_limit = 2 * max_tool_runs + 1
  * the confirmation broker  -- its implementation is absent from the
    source tree (app/routers/chat.py only imports and calls
    set_confirmation_result), so it is modelled from the specification.

External services are abstracted as explicit function arguments:
the embedding model (OllamaEmbeddings.embed_query) becomes an opaque
handle generator `embed : String -> Nat`, the cosine similarity computed
either by the Neo4j vector index or by inline Python float arithmetic
becomes an oracle `cos : Nat -> Nat -> Rat`, and rapidfuzz fuzz.ratio
becomes an oracle `ratio : String -> String -> Rat` on the 0..100 scale
used by the library.  Scores are rationals standing in for Python floats.
-/

namespace RtxChat

/-- Similarity scores, importances and token ratios are modelled as
rationals standing in for Python floats. -/
abbrev Score := ℚ

/-! ## Context manager (app/context_manager.py) -/

namespace Ctx

/-- A single element of a multi-part message content list, as handled by
count_message_tokens: a dict part with type == "text" carrying text, a
plain string part, or any other part (e.g. an image dict). -/
inductive Part where
  | textPart (s : String)
  | strPart (s : String)
  | otherPart
deriving DecidableEq

/-- Message content: either a plain string or a list of parts, mirroring
the two isinstance branches of count_message_tokens. -/
inductive Content where
  | str (s : String)
  | parts (l : List Part)
deriving DecidableEq

/-- A message as seen by the context manager: only the content matters
for token counting. -/
structure Msg where
  content : Content
deriving DecidableEq

/-- Translation of estimate_tokens: `if not text: return 0` then
`len(text) // 4` (Python floor division). -/
def estimate_tokens (text : String) : Nat :=
  if text = "" then 0 else text.length / 4

/-- Token contribution of one content part inside the
`isinstance(msg.content, list)` branch of count_message_tokens: a dict
part with type "text" and a plain string part contribute their text
estimate, anything else contributes nothing. -/
def partTokens : Part → Nat
  | .textPart s => estimate_tokens s
  | .strPart s => estimate_tokens s
  | .otherPart => 0

/-- Translation of count_message_tokens: the running total accumulated
over messages and, for list content, over parts. -/
def count_message_tokens (msgs : List Msg) : Nat :=
  msgs.foldl
    (fun total m =>
      match m.content with
      | .str s => total + estimate_tokens s
      | .parts l => l.foldl (fun t p => t + partTokens p) total)
    0

/-- Token count of one message, in closed map-sum form (used to state
the per-part summation property of count_message_tokens). -/
def msgTokens (m : Msg) : Nat :=
  match m.content with
  | .str s => estimate_tokens s
  | .parts l => (l.map partTokens).sum

end Ctx

/-! ## Relationship-type sanitization (app/neo4j_client.py, save_memory) -/

namespace Rel

/-- Translation of
`"".join(c for c in relationship_type if c.isalnum() or c == "_").upper()`.
Lean's Char.isAlphanum and Char.toUpper are ASCII; Python's str methods
are Unicode, so theorems about this model are stated for ASCII input. -/
def sanitizeRelType (s : String) : String :=
  String.mk ((s.toList.filter (fun c => c.isAlphanum || c == '_')).map Char.toUpper)

/-- The relationship type actually interpolated into the Cypher query:
the sanitized string, or the fallback RELATES_TO when it is empty. -/
def usedRelType (s : String) : String :=
  let t := sanitizeRelType s
  if t = "" then "RELATES_TO" else t

/-- The f-string fragment of the entity-linking query in save_memory that
receives the sanitized relationship type. -/
def linkQueryFragment (relationshipType : String) : String :=
  "CREATE (m)-[:" ++ usedRelType relationshipType ++ "]->(p)"

/-- Checker for the alphabet claimed by the spec: a nonempty string of
uppercase letters and underscores only (the regex [A-Z_]+ anchored). -/
def isUpperUnderscoreOnly (s : String) : Bool :=
  !s.isEmpty && s.toList.all (fun c => ('A' ≤ c && c ≤ 'Z') || c == '_')

end Rel

/-! ## delete_memory tool (app/tools/memory.py) -/

namespace Del

/-- A labelled graph node with its Neo4j element id.  The label records
whether the node is a Fact, Preference, Event, Person, Agent,
Conversation, KnowledgeChunk, etc.; delete_memory never looks at it. -/
structure GNode where
  eid : Nat
  label : String
deriving DecidableEq

/-- A property graph: nodes plus relationships (endpoints by element id).
DETACH DELETE removes a node together with its incident relationships. -/
structure GraphDB where
  nodes : List GNode
  edges : List (Nat × Nat)
deriving DecidableEq

/-- Translation of the delete_memory tool:
`MATCH (n) WHERE elementId(n) = $id DETACH DELETE n RETURN count(n)`,
then "Memory deleted" when the count is positive, else "Memory not
found".  The MATCH has no label, so any node with the element id is
detach-deleted. -/
def delete_memory (db : GraphDB) (itemId : Nat) : String × GraphDB :=
  let deleted := (db.nodes.filter (fun n => n.eid == itemId)).length
  let db2 : GraphDB :=
    ⟨db.nodes.filter (fun n => n.eid != itemId),
     db.edges.filter (fun e => e.1 != itemId && e.2 != itemId)⟩
  (if deleted > 0 then "Memory deleted" else "Memory not found", db2)

end Del

/-! ## Duplicate guard (app/tools/memory.py: check_duplicate, add_fact,
add_preference, with the Fact/Preference models of app/graph_models.py) -/

namespace Dup

/-- A Fact node as stored by Fact.save (merge key content, fields
category and embedding).  The embedding is an opaque handle scored by
the cosine oracle. -/
structure FactNode where
  eid : Nat
  content : String
  category : String
  emb : Nat
deriving DecidableEq

/-- A Preference node as stored by Preference.save (merge key
instruction, field embedding). -/
structure PrefNode where
  eid : Nat
  instruction : String
  emb : Nat
deriving DecidableEq

/-- The slice of the graph that add_fact / add_preference touch: the
Fact and Preference nodes with their per-label vector indexes, the
HAS_FACT / HAS_PREFERENCE edges from the singleton User (recorded by
target element id), and the next fresh element id. -/
structure MemDB where
  facts : List FactNode
  prefs : List PrefNode
  userFacts : List Nat
  userPrefs : List Nat
  nextEid : Nat
deriving DecidableEq

/-- Top-1 result of db.index.vector.queryNodes on the Fact index: the
node attaining the maximal cosine score against the query embedding
(first such node on ties, none on an empty index). -/
def bestFact (cos : Nat → Nat → Score) (q : Nat) : List FactNode → Option (FactNode × Score)
  | [] => none
  | f :: fs =>
    match bestFact cos q fs with
    | none => some (f, cos q f.emb)
    | some (g, sg) =>
      let sf := cos q f.emb
      if sg > sf then some (g, sg) else some (f, sf)

/-- Top-1 result of db.index.vector.queryNodes on the Preference index. -/
def bestPref (cos : Nat → Nat → Score) (q : Nat) : List PrefNode → Option (PrefNode × Score)
  | [] => none
  | p :: ps =>
    match bestPref cos q ps with
    | none => some (p, cos q p.emb)
    | some (g, sg) =>
      let sp := cos q p.emb
      if sg > sp then some (g, sg) else some (p, sp)

/-- The 4-tuple returned by check_duplicate:
(match?, element id, score, content). The source annotates the return
type as a 3-tuple but actually returns these four components. -/
structure DupResult where
  isDup : Bool
  dupId : Option Nat
  score : Score
  existing : Option String
deriving DecidableEq

/-- check_duplicate for label Fact: top-1 vector hit, duplicate iff its
score is at least the threshold (default 0.93). -/
def check_duplicate_Fact (cos : Nat → Nat → Score) (db : MemDB) (embedding : Nat)
    (threshold : Score := 93/100) : DupResult :=
  match bestFact cos embedding db.facts with
  | some (f, s) =>
    if s ≥ threshold then ⟨true, some f.eid, s, some f.content⟩
    else ⟨false, none, 0, none⟩
  | none => ⟨false, none, 0, none⟩

/-- check_duplicate for label Preference. -/
def check_duplicate_Pref (cos : Nat → Nat → Score) (db : MemDB) (embedding : Nat)
    (threshold : Score := 93/100) : DupResult :=
  match bestPref cos embedding db.prefs with
  | some (p, s) =>
    if s ≥ threshold then ⟨true, some p.eid, s, some p.instruction⟩
    else ⟨false, none, 0, none⟩
  | none => ⟨false, none, 0, none⟩

/-- The strings returned by the add_fact / add_preference tools, kept as
structured values so the scores and ids they embed stay inspectable. -/
inductive ToolReply where
  | similarFactExists (score : Score) (existing : String) (dupId : Nat)
  | factAdded (content : String)
  | similarPrefExists (score : Score) (existing : String) (dupId : Nat)
  | prefAdded (instruction : String)
deriving DecidableEq

/-- Fact.embedding_text: `f"{self.content} {self.category}"`. -/
def factEmbeddingText (content category : String) : String :=
  content ++ " " ++ category

/-- Fact.save: `MERGE (n:Fact {content}) SET n.category, n.embedding`.
An existing node with the merge-key content is updated, otherwise a new
node is created with a fresh element id. -/
def mergeFactNode (db : MemDB) (content category : String) (emb : Nat) : MemDB :=
  if db.facts.any (fun f => f.content == content) then
    { db with facts := db.facts.map (fun f =>
        if f.content == content then { f with category := category, emb := emb } else f) }
  else
    { db with facts := db.facts ++ [⟨db.nextEid, content, category, emb⟩],
              nextEid := db.nextEid + 1 }

/-- Preference.save: `MERGE (n:Preference {instruction}) SET n.embedding`. -/
def mergePrefNode (db : MemDB) (instruction : String) (emb : Nat) : MemDB :=
  if db.prefs.any (fun p => p.instruction == instruction) then
    { db with prefs := db.prefs.map (fun p =>
        if p.instruction == instruction then { p with emb := emb } else p) }
  else
    { db with prefs := db.prefs ++ [⟨db.nextEid, instruction, emb⟩],
              nextEid := db.nextEid + 1 }

/-- `MATCH (u:User) MATCH (f:Fact {content}) MERGE (u)-[:HAS_FACT]->(f)`. -/
def linkUserFact (db : MemDB) (content : String) : MemDB :=
  match db.facts.find? (fun f => f.content == content) with
  | some f => if f.eid ∈ db.userFacts then db else { db with userFacts := db.userFacts ++ [f.eid] }
  | none => db

/-- `MERGE (u)-[:HAS_PREFERENCE]->(p)` for the preference node. -/
def linkUserPref (db : MemDB) (instruction : String) : MemDB :=
  match db.prefs.find? (fun p => p.instruction == instruction) with
  | some p => if p.eid ∈ db.userPrefs then db else { db with userPrefs := db.userPrefs ++ [p.eid] }
  | none => db

/-- Translation of the add_fact tool: embed the fact text, run
check_duplicate; on a duplicate return the advisory message (with score,
existing content and id) and leave the graph untouched; otherwise save
the node and merge the HAS_FACT edge.  The dupId/existing defaults are
never used when isDup is true. -/
def add_fact (cos : Nat → Nat → Score) (embed : String → Nat) (db : MemDB)
    (content category : String) : ToolReply × MemDB :=
  let emb := embed (factEmbeddingText content category)
  let r := check_duplicate_Fact cos db emb
  if r.isDup then
    (.similarFactExists r.score (r.existing.getD "") (r.dupId.getD 0), db)
  else
    let db1 := mergeFactNode db content category emb
    (.factAdded content, linkUserFact db1 content)

/-- Translation of the add_preference tool (Preference.embedding_text is
the instruction itself). -/
def add_preference (cos : Nat → Nat → Score) (embed : String → Nat) (db : MemDB)
    (instruction : String) : ToolReply × MemDB :=
  let emb := embed instruction
  let r := check_duplicate_Pref cos db emb
  if r.isDup then
    (.similarPrefExists r.score (r.existing.getD "") (r.dupId.getD 0), db)
  else
    let db1 := mergePrefNode db instruction emb
    (.prefAdded instruction, linkUserPref db1 instruction)

end Dup

/-! ## Entity canonicalization (app/neo4j_client.py, _canonicalize_person) -/

namespace Canon

/-- A Person node as created by _canonicalize_person: element id,
name_canonical, aliases, optional embedding handle, summary. -/
structure Person where
  pid : Nat
  name : String
  aliases : List String
  emb : Option Nat
  summary : String
deriving DecidableEq

/-- The Person table plus the next fresh element id. -/
structure People where
  persons : List Person
  nextPid : Nat
deriving DecidableEq

/-- Python name[0].lower().  Python raises on an empty string; the model
returns a blank default, and theorems only use it on nonempty names. -/
def pyLowerFirst (s : String) : Char :=
  (s.toList.headD ' ').toLower

/-- The acceptance heuristic of step 2 of _canonicalize_person, for one
stored person: the person has an embedding (`if r["emb"]:`), cosine
similarity strictly above 0.85, case-insensitive first-character match,
and name lengths differing by at most 6. -/
def aliasHeuristic (cos : Nat → Nat → Score) (nameEmb : Nat) (name : String) (p : Person) : Bool :=
  match p.emb with
  | none => false
  | some e =>
    decide (cos nameEmb e > 85/100)
      && (pyLowerFirst name == pyLowerFirst p.name)
      && decide (((name.length : Int) - (p.name.length : Int)).natAbs ≤ 6)

/-- Translation of _canonicalize_person: (1) exact name_canonical or
alias match returns the stored id; (2) otherwise embed the name and
accept the first person (in record order) passing the heuristic,
appending the name to its aliases; (3) otherwise create a new Person
with empty aliases and the computed embedding. -/
def _canonicalize_person (cos : Nat → Nat → Score) (embed : String → Nat)
    (st : People) (name : String) : Nat × People :=
  match st.persons.find? (fun p => p.name == name || p.aliases.contains name) with
  | some p => (p.pid, st)
  | none =>
    let nameEmb := embed name
    match st.persons.find? (aliasHeuristic cos nameEmb name) with
    | some p =>
      (p.pid,
       { st with persons := st.persons.map (fun q =>
           if q.pid == p.pid then { q with aliases := q.aliases ++ [name] } else q) })
    | none =>
      (st.nextPid,
       { st with persons := st.persons ++ [⟨st.nextPid, name, [], some nameEmb, ""⟩],
                 nextPid := st.nextPid + 1 })

end Canon

/-! ## Hybrid retrieval (app/neo4j_client.py: _extract_words_from_message,
_detect_entity_hybrid, _get_entity_subgraph, get_context_aware_memories) -/

namespace Retr

/-- A Person record as returned by the detection query:
elementId, embedding, name_canonical, aliases. -/
structure PersonR where
  pid : Nat
  name : String
  aliases : List String
  emb : Option Nat
deriving DecidableEq

/-- A Memory node owned by the User (all memories matched by
`(u:User)-[:HAS_MEMORY]->(m:Memory)`): elementId, type, summary,
importance, timestamp, embedding handle. -/
structure MemR where
  eid : Nat
  mtype : String
  summary : String
  importance : Score
  timestamp : Score
  emb : Nat
deriving DecidableEq

/-- A `(m:Memory)-[r]->(p:Person)` relationship, one row per
relationship instance, carrying its type string. -/
structure LinkR where
  mem : Nat
  person : Nat
  rel : String
deriving DecidableEq

/-- The graph state visible to retrieval. -/
structure Store where
  persons : List PersonR
  mems : List MemR
  links : List LinkR
deriving DecidableEq

/-- Python str.lower() character by character (String.toLower has the
same semantics but its byte-level implementation does not reduce in the
kernel, so the model lowers the character list directly). -/
def strLower (s : String) : String :=
  String.mk (s.toList.map Char.toLower)

/-- A character matched by the regex class \w (ASCII fragment). -/
def isWordChar (c : Char) : Bool :=
  c.isAlphanum || c == '_'

/-- Splits a lowered character stream into maximal \w runs, accumulating
the current run in reverse. -/
def wordsAux : List Char → List Char → List String
  | [], acc => if acc.isEmpty then [] else [String.mk acc.reverse]
  | c :: cs, acc =>
    if isWordChar c then wordsAux cs (c :: acc)
    else if acc.isEmpty then wordsAux cs []
    else String.mk acc.reverse :: wordsAux cs []

/-- Translation of _extract_words_from_message:
`re.findall(r'\b\w+\b', message.lower())`. -/
def _extract_words_from_message (s : String) : List String :=
  wordsAux (s.toList.map Char.toLower) []

/-- `[canonical_name] + aliases` for one person. -/
def allNames (p : PersonR) : List String :=
  p.name :: p.aliases

/-- Method 1 exact branch for one person: some message word equals some
of the person names lowered (`word == name.lower()`). -/
def exactMatchPerson (words : List String) (p : PersonR) : Bool :=
  words.any (fun w => (allNames p).any (fun n => w == strLower n))

/-- Method 1 fuzzy branch: fold over persons, words and names in source
order, keeping the best fuzzy ratio when it exceeds 0.8 and the running
best (`ratio > 0.8 and ratio > best_score`).  fuzz.ratio returns a 0..100
value, divided by 100 in the source. -/
def fuzzyBest (ratio : String → String → Score) (persons : List PersonR)
    (words : List String) : Score × Option Nat :=
  persons.foldl
    (fun best p =>
      words.foldl
        (fun best w =>
          (allNames p).foldl
            (fun best n =>
              let rt := ratio w (strLower n) / 100
              if rt > 8/10 ∧ rt > best.1 then (rt, some p.pid) else best)
            best)
        best)
    (0, none)

/-- Method 2 embedding fallback: best cosine similarity between the
message embedding and each person embedding, accepted strictly above
0.85 (`sim > 0.85 and sim > best_score`). -/
def embBest (cos : Nat → Nat → Score) (msgEmb : Nat) (persons : List PersonR) :
    Score × Option Nat :=
  persons.foldl
    (fun best p =>
      match p.emb with
      | none => best
      | some e =>
        let sim := cos msgEmb e
        if sim > 85/100 ∧ sim > best.1 then (sim, some p.pid) else best)
    (0, none)

/-- Translation of _detect_entity_hybrid: empty person table yields none;
the first person (in record order) with an exact lowered word match is
returned immediately; otherwise the fuzzy best above 0.8 wins; otherwise
for short queries (at most 4 words) the embedding fallback applies. -/
def _detect_entity_hybrid (cos : Nat → Nat → Score) (ratio : String → String → Score)
    (persons : List PersonR) (userMessage : String) (msgEmb : Nat) : Option Nat :=
  if persons.isEmpty then none
  else
    let words := _extract_words_from_message userMessage
    match persons.find? (exactMatchPerson words) with
    | some p => some p.pid
    | none =>
      let fb := fuzzyBest ratio persons words
      match fb.2 with
      | some pid => if fb.1 > 8/10 then some pid else none
      | none =>
        if words.length ≤ 4 then (embBest cos msgEmb persons).2 else none

/-- One row of the 1-hop subgraph query of _get_entity_subgraph:
the linked memory with the relationship type of the matched edge. -/
structure SubRow where
  eid : Nat
  mtype : String
  summary : String
  rel : String
  importance : Score
  timestamp : Score
deriving DecidableEq

/-- The rows of `OPTIONAL MATCH (p)<-[r]-(m:Memory)` for the entity:
one row per relationship, dropping rows whose memory node is absent
(the source filters memories without an id). -/
def subRowsUnsorted (st : Store) (pid : Nat) : List SubRow :=
  st.links.filterMap (fun l =>
    if l.person == pid then
      match st.mems.find? (fun m => m.eid == l.mem) with
      | some m => some ⟨m.eid, m.mtype, m.summary, l.rel, m.importance, m.timestamp⟩
      | none => none
    else none)

/-- `ORDER BY m.importance DESC, m.timestamp DESC` as a relation. -/
def subRowOrder (a b : SubRow) : Prop :=
  b.importance < a.importance ∨ (a.importance = b.importance ∧ b.timestamp ≤ a.timestamp)

instance : DecidableRel subRowOrder := fun a b => by
  unfold subRowOrder; infer_instance

/-- Translation of _get_entity_subgraph: linked memories ordered by
importance then timestamp, both descending, limited to `limit` rows. -/
def _get_entity_subgraph (st : Store) (pid : Nat) (limit : Nat) : List SubRow :=
  (List.insertionSort subRowOrder (subRowsUnsorted st pid)).take limit

/-- One entry of the all_memories dict of get_context_aware_memories. -/
structure Cand where
  eid : Nat
  mtype : String
  summary : String
  score : Score
  source : String
  relationship : Option String
deriving DecidableEq

/-- Step 1 of get_context_aware_memories: the vector search keeps every
User memory whose cosine score against the message embedding is strictly
above 0.5, inserted into the dict in record order. -/
def semanticCands (cos : Nat → Nat → Score) (st : Store) (msgEmb : Nat) : List Cand :=
  st.mems.filterMap (fun m =>
    let score := cos msgEmb m.emb
    if score > 1/2 then some ⟨m.eid, m.mtype, m.summary, score, "semantic", none⟩
    else none)

/-- Step 2 of get_context_aware_memories for one subgraph row: an
existing dict entry is boosted to max(score, structural_score + 0.05)
with structural_score = 0.9 and receives the relationship; a missing one
is appended as a pure structural match with score 0.9. -/
def applyStructuralRow (cands : List Cand) (row : SubRow) : List Cand :=
  if cands.any (fun c => c.eid == row.eid) then
    cands.map (fun c =>
      if c.eid == row.eid then
        { c with score := max c.score (9/10 + 5/100), relationship := some row.rel }
      else c)
  else
    cands ++ [⟨row.eid, row.mtype, row.summary, 9/10, "graph", some row.rel⟩]

/-- The all_memories dict after steps 1 and 2, as an insertion-ordered
list: semantic hits first, then the subgraph rows of the detected entity
(fetched with limit top_k * 2) folded in. -/
def candidates (cos : Nat → Nat → Score) (ratio : String → String → Score)
    (st : Store) (userMessage : String) (msgEmb : Nat) (topK : Nat) : List Cand :=
  let sem := semanticCands cos st msgEmb
  match _detect_entity_hybrid cos ratio st.persons userMessage msgEmb with
  | some pid => (_get_entity_subgraph st pid (topK * 2)).foldl applyStructuralRow sem
  | none => sem

/-- `sorted(..., key=score, reverse=True)`: descending by score.  Python
sorted is stable, and so is List.insertionSort with this relation, so
equal scores keep dict insertion order. -/
def candOrder (a b : Cand) : Prop :=
  b.score ≤ a.score

instance : DecidableRel candOrder := fun a b => by
  unfold candOrder; infer_instance

instance : IsTotal Cand candOrder :=
  ⟨fun a b => le_total b.score a.score⟩

instance : IsTrans Cand candOrder :=
  ⟨fun _ _ _ h1 h2 => le_trans h2 h1⟩

/-- Step 3 of get_context_aware_memories: stable sort by descending
score, truncated to top_k. -/
def sortedTopK (cos : Nat → Nat → Score) (ratio : String → String → Score)
    (st : Store) (userMessage : String) (msgEmb : Nat) (topK : Nat) : List Cand :=
  (List.insertionSort candOrder (candidates cos ratio st userMessage msgEmb topK)).take topK

/-- Step 4/5 context for a memory without relationship info: its
outgoing Person connections rendered as a bracketed comma list. -/
def connTag (st : Store) (eid : Nat) : String :=
  let conns := st.links.filterMap (fun l =>
    if l.mem == eid then
      (st.persons.find? (fun p => p.pid == l.person)).map (fun p => l.rel ++ " " ++ p.name)
    else none)
  if conns.isEmpty then "" else "[" ++ String.intercalate ", " conns ++ "] "

/-- One formatted result row: summary with context tag, score, type. -/
structure RetrResult where
  summary : String
  score : Score
  mtype : String
deriving DecidableEq

/-- Step 5 formatting for one entry: entity-linked hits are tagged with
their relationship and the detected entity name; others with their
fetched Person connections. -/
def formatCand (st : Store) (entityName : Option String) (c : Cand) : RetrResult :=
  let tag :=
    match c.relationship with
    | some rel =>
      match entityName with
      | some en => "[" ++ rel ++ " " ++ en ++ "] "
      | none => ""
    | none => connTag st c.eid
  ⟨tag ++ c.summary, c.score, c.mtype⟩

/-- The detected entity's display name (subgraph["name"]). -/
def personName (st : Store) (pid : Nat) : Option String :=
  (st.persons.find? (fun p => p.pid == pid)).map (fun p => p.name)

/-- Dict lookup all_memories[eid]["score"] on the insertion-ordered
candidate list (used to state the merge-scoring properties). -/
def scoreOf (cands : List Cand) (e : Nat) : Option Score :=
  (cands.find? (fun c => c.eid == e)).map Cand.score

/-- Translation of get_context_aware_memories: embed the message, detect
an entity, merge vector and structural candidates, sort, truncate to
top_k and format. -/
def get_context_aware_memories (cos : Nat → Nat → Score) (ratio : String → String → Score)
    (embed : String → Nat) (st : Store) (userMessage : String) (topK : Nat) :
    List RetrResult :=
  let msgEmb := embed userMessage
  let entityName :=
    match _detect_entity_hybrid cos ratio st.persons userMessage msgEmb with
    | some pid => personName st pid
    | none => none
  (sortedTopK cos ratio st userMessage msgEmb topK).map (formatCand st entityName)

end Retr

/-! ## Agent tool loop (app/agent.py: create_agent builds the langgraph
START -> model -> (tools -> model)* -> END graph;
ConversationManager.stream_response runs it under
recursion_limit = max_tool_runs * 2 + 1 via astream_events and then runs
it a second time via ainvoke when the first run completed) -/

namespace Loop

/-- The two nodes of the compiled state graph. -/
inductive GraphNode where
  | model
  | tools
deriving DecidableEq

/-- Executes the graph from a given node under a remaining superstep
budget.  The stub answers, for the i-th LLM call of the run, whether the
assistant message carries tool calls (should_continue routes to tools on
tool calls, to END otherwise).  Returns the number of LLM calls made and
whether END was reached; exhausting the budget before END models
langgraph raising GraphRecursionError. -/
def runFrom (stub : Nat → Bool) : Nat → GraphNode → Nat → Nat × Bool
  | 0, _, calls => (calls, false)
  | b + 1, .model, calls =>
    if stub calls then runFrom stub b .tools (calls + 1) else (calls + 1, true)
  | b + 1, .tools, calls => runFrom stub b .model calls

/-- `config = {"recursion_limit": self.max_tool_runs * 2 + 1}`. -/
def recursionLimit (maxToolRuns : Nat) : Nat :=
  2 * maxToolRuns + 1

/-- One full graph invocation (astream_events or ainvoke) starting at
the model node, as in create_agent where START edges into model. -/
def runGraphCalls (stub : Nat → Bool) (limit : Nat) : Nat × Bool :=
  runFrom stub limit .model 0

/-- LLM calls made by one turn of stream_response: the streaming run,
plus — only when the streaming run completed without a recursion
error — the second full run performed by `await agent.ainvoke(...)` on
the same message list with the same config. -/
def stream_response_llm_calls (stub : Nat → Bool) (maxToolRuns : Nat) : Nat :=
  let r1 := runGraphCalls stub (recursionLimit maxToolRuns)
  if r1.2 then r1.1 + (runGraphCalls stub (recursionLimit maxToolRuns)).1 else r1.1

/-- The event types that stream_response can yield (the literal "type"
fields of its yield statements).  It never yields metadata or done; the
chat router emits the terminal done outside the engine. -/
def stream_event_types : List String :=
  ["memory_search_start", "memory_search_end", "thinking", "content",
   "tool_start", "tool_end", "error"]

end Loop

/-! ## Confirmation broker (modelled from the spec).

Modelled from the spec: the confirmation broker implementation
(`pending` and `results` tables, `set_confirmation_result`, and the
engine side that emits tool_confirmation_required and awaits the
signal) is not present under src/ — app/routers/chat.py imports
set_confirmation_result from app.agent, but app/agent.py does not define
it, and the shipped stream_response contains no confirmation gating.
The definitions below follow spec sections 4.7 (broker flow), 4.9 step
6b (gating during tool execution), 7 (tool errors become tool_end
output), and the cancellation design note (scoped acquisition: on any
exit including cancellation the broker entries are removed and the
awaiter is treated as denied). -/

namespace Broker

/-- `needle` begins `hay` (character list comparison). -/
def charsStart : List Char → List Char → Bool
  | [], _ => true
  | _ :: _, [] => false
  | a :: as, b :: bs => a == b && charsStart as bs

/-- `needle` occurs somewhere inside `hay`. -/
def charsContain (needle : List Char) : List Char → Bool
  | [] => needle.isEmpty
  | b :: bs => charsStart needle (b :: bs) || charsContain needle bs

/-- Substring containment on strings (Python `in`). -/
def containsSub (needle hay : String) : Bool :=
  charsContain needle.toList hay.toList

/-- Spec 4.7: `requires_confirmation(tool_name) = tool_name contains any
of {"add_", "update_", "delete_"}`. -/
def requires_confirmation (name : String) : Bool :=
  containsSub "add_" name || containsSub "update_" name || containsSub "delete_" name

/-- A tool call pending execution, keyed by its opaque tool_call_id. -/
structure ToolCall where
  id : String
  name : String
deriving DecidableEq

/-- The external actor's behaviour for one awaited confirmation: post
approval, post denial, or cancel the turn while the engine is suspended
on the signal. -/
inductive Decision where
  | approve
  | deny
  | cancel
deriving DecidableEq

/-- The turn events relevant to the confirmation invariant. -/
inductive Ev where
  | toolStart (id : String)
  | confReq (id : String)
  | toolEnd (id : String)
  | toolDenied (id : String)
deriving DecidableEq

/-- The broker's two process-local tables. -/
structure BrokerSt where
  pending : List String
  results : List (String × Bool)
deriving DecidableEq

/-- The engine creates the pending entry before emitting
tool_confirmation_required. -/
def addPending (id : String) (b : BrokerSt) : BrokerSt :=
  { b with pending := b.pending ++ [id] }

/-- set_confirmation_result writes the boolean and releases the signal. -/
def setResult (id : String) (v : Bool) (b : BrokerSt) : BrokerSt :=
  { b with results := b.results ++ [(id, v)] }

/-- The engine (or the cancellation cleanup) reads and removes both
entries for the id. -/
def removeEntries (id : String) (b : BrokerSt) : BrokerSt :=
  ⟨b.pending.erase id, b.results.filter (fun r => r.1 != id)⟩

/-- Executes the tool calls of one loop iteration in issue order.
A gated call registers pending, emits tool_confirmation_required,
suspends, and on the decision removes both entries and emits tool_end
(approved; tool errors are still tool_end with the error text as output)
or tool_denied (denied).  Cancellation performs the scoped cleanup,
signals denial, and abandons the remaining calls.  An ungated call is
invoked directly and emits tool_end. -/
def runTurn (env : String → Decision) : BrokerSt → List ToolCall → List Ev × BrokerSt
  | b, [] => ([], b)
  | b, tc :: rest =>
    if requires_confirmation tc.name then
      let b1 := addPending tc.id b
      match env tc.id with
      | .approve =>
        let b2 := removeEntries tc.id (setResult tc.id true b1)
        let r := runTurn env b2 rest
        ([.toolStart tc.id, .confReq tc.id, .toolEnd tc.id] ++ r.1, r.2)
      | .deny =>
        let b2 := removeEntries tc.id (setResult tc.id false b1)
        let r := runTurn env b2 rest
        ([.toolStart tc.id, .confReq tc.id, .toolDenied tc.id] ++ r.1, r.2)
      | .cancel =>
        ([.toolStart tc.id, .confReq tc.id, .toolDenied tc.id],
         removeEntries tc.id (setResult tc.id false b1))
    else
      let r := runTurn env b rest
      ([.toolStart tc.id, .toolEnd tc.id] ++ r.1, r.2)

/-- Scans the event list keeping the set of confirmation ids that were
required but not yet answered; a re-required open id fails the scan, and
the scan succeeds only when every required id was answered by a later
tool_end or tool_denied before the turn ended. -/
def scanConf (opens : List String) : List Ev → Bool
  | [] => opens.isEmpty
  | .confReq id :: rest => if id ∈ opens then false else scanConf (id :: opens) rest
  | .toolEnd id :: rest => scanConf (opens.erase id) rest
  | .toolDenied id :: rest => scanConf (opens.erase id) rest
  | .toolStart _ :: rest => scanConf opens rest

/-- Every tool_confirmation_required is answered later in the turn. -/
def confirmationComplete (evs : List Ev) : Bool :=
  scanConf [] evs

/-- Number of tool_confirmation_required events for an id. -/
def countConfReq (evs : List Ev) (id : String) : Nat :=
  evs.countP (fun e => e == .confReq id)

/-- Number of tool_end or tool_denied events for an id. -/
def countClosed (evs : List Ev) (id : String) : Nat :=
  evs.countP (fun e => e == .toolEnd id || e == .toolDenied id)

end Broker

/-! ## Concrete fixtures used by witnesses and counterexamples -/

namespace Fix

/-- A graph with a Person node (element id 7), a Fact node (element id
8) and one relationship between them, for the delete_memory witness. -/
def delDB : Del.GraphDB :=
  ⟨[⟨7, "Person"⟩, ⟨8, "Fact"⟩], [(7, 8)]⟩

/-- Cosine oracle for the duplicate-guard scenario: the new fact
embedding (handle 7) scores 0.95 against the stored fact embedding
(handle 5). -/
def dupCos : Nat → Nat → Score :=
  fun a b => if a = 7 ∧ b = 5 then 19/20 else 0

/-- Embedder for the duplicate-guard scenario (Fact.embedding_text of
the incoming near-duplicate maps to handle 7). -/
def dupEmbed : String → Nat :=
  fun s => if s = "Owns a red Tesla Model 3 possession" then 7 else 0

/-- A store holding one Fact "Owns red Tesla Model 3" (element id 0,
embedding handle 5) owned by the User. -/
def dupDB : Dup.MemDB :=
  ⟨[⟨0, "Owns red Tesla Model 3", "possession", 5⟩], [], [0], [], 1⟩

/-- Cosine oracle for the canonicalization counterexample: the embedding
of "Alek" (handle 21) scores exactly 0.85 against the stored embedding
of "Aleksander" (handle 20). -/
def canonCos : Nat → Nat → Score :=
  fun a b => if a = 21 ∧ b = 20 then 17/20 else 0

/-- Embedder for the canonicalization scenarios. -/
def canonEmbed : String → Nat :=
  fun s => if s = "Alek" then 21 else if s = "Aleksander" then 20 else 0

/-- A Person table holding "Aleksander" (id 0, embedding handle 20). -/
def canonDB : Canon.People :=
  ⟨[⟨0, "Aleksander", [], some 20, ""⟩], 1⟩

/-- Cosine oracle for the canonicalization witness: "Alek" scores 0.9
(strictly above 0.85) against "Aleksander". -/
def canonCosW : Nat → Nat → Score :=
  fun a b => if a = 21 ∧ b = 20 then 9/10 else 0

/-- Cosine oracle for the merge-scoring scenario: the query embedding
(handle 10) scores 0.93 against the linked memory (handle 11). -/
def r5cos : Nat → Nat → Score :=
  fun a b => if a = 10 ∧ b = 11 then 93/100 else 0

/-- Fuzzy oracle returning 0 everywhere (no fuzzy matches). -/
def zeroRatio : String → String → Score :=
  fun _ _ => 0

/-- Store for the merge-scoring scenario: person "ola" with one linked
memory that is also a semantic hit. -/
def r5st : Retr.Store :=
  ⟨[⟨1, "ola", [], none⟩], [⟨1, "fact", "m one", 1, 1, 11⟩], [⟨1, 1, "KNOWS"⟩]⟩

/-- Cosine oracle for the entity-priority counterexample: the linked
memory (handle 11) scores 0.4 (below the 0.5 vector floor), the
unlinked memory (handle 12) scores 0.99. -/
def r4cos : Nat → Nat → Score :=
  fun a b => if a = 10 ∧ b = 11 then 2/5 else if a = 10 ∧ b = 12 then 99/100 else 0

/-- Store for the entity-priority counterexample: person "alek" with one
linked memory, plus one unlinked high-similarity memory. -/
def r4st : Retr.Store :=
  ⟨[⟨1, "alek", [], none⟩],
   [⟨1, "event", "m linked", 1, 1, 11⟩, ⟨2, "fact", "m free", 1, 1, 12⟩],
   [⟨1, 1, "KNOWS"⟩]⟩

/-- Cosine oracle scoring 0 everywhere. -/
def zeroCos : Nat → Nat → Score :=
  fun _ _ => 0

/-- Store for the entity-priority witness: person "alek" with a single
linked memory and no other memories. -/
def r4wst : Retr.Store :=
  ⟨[⟨1, "alek", [], none⟩], [⟨1, "event", "m linked", 1, 1, 11⟩], [⟨1, 1, "KNOWS"⟩]⟩

/-- Cosine oracle for the monotonicity counterexample: memory 3
(handle 13) scores 0.6, memory 4 (handle 14) scores 0.8, the rest fall
below the 0.5 floor. -/
def r9cos : Nat → Nat → Score :=
  fun a b => if a = 10 ∧ b = 13 then 3/5 else if a = 10 ∧ b = 14 then 4/5 else 0

/-- Store for the monotonicity counterexample: person "ola" with three
linked memories of descending importance (the third also a semantic
hit) plus one unlinked semantic memory. -/
def r9st : Retr.Store :=
  ⟨[⟨1, "ola", [], none⟩],
   [⟨1, "event", "e one", 3, 0, 11⟩, ⟨2, "event", "e two", 2, 0, 12⟩,
    ⟨3, "event", "e three", 1, 0, 13⟩, ⟨4, "fact", "free", 0, 0, 14⟩],
   [⟨1, 1, "R"⟩, ⟨2, 1, "R"⟩, ⟨3, 1, "R"⟩]⟩

/-- Store for the monotonicity witness: one person "bob" (no embedding)
who never matches the query, with one memory. -/
def r9wst : Retr.Store :=
  ⟨[⟨1, "bob", [], none⟩], [⟨1, "fact", "f", 1, 0, 11⟩], []⟩

/-- External actor for the broker witness: approves t1, denies the
rest. -/
def brokerEnv : String → Broker.Decision :=
  fun id => if id = "t1" then .approve else .deny

/-- Tool calls of one iteration for the broker witness: two gated calls
around one ungated call. -/
def brokerCalls : List Broker.ToolCall :=
  [⟨"t1", "add_fact"⟩, ⟨"t2", "search_web"⟩, ⟨"t3", "delete_memory"⟩]

end Fix

/-!
# Theorems

Shared helper lemmas first, then one theorem per claim (with its
counterexample and witness where applicable).
-/

/-! ### Helpers: context manager folds -/

theorem ctx_foldl_parts (l : List Ctx.Part) (a : Nat) :
    l.foldl (fun t p => t + Ctx.partTokens p) a = a + (l.map Ctx.partTokens).sum := by
  induction l generalizing a with
  | nil => simp
  | cons p ps ih => simp [List.foldl_cons, ih, Nat.add_assoc]

theorem ctx_foldl_msgs (msgs : List Ctx.Msg) (a : Nat) :
    msgs.foldl
      (fun total m =>
        match m.content with
        | .str s => total + Ctx.estimate_tokens s
        | .parts l => l.foldl (fun t p => t + Ctx.partTokens p) total)
      a = a + (msgs.map Ctx.msgTokens).sum := by
  induction msgs generalizing a with
  | nil => simp
  | cons m ms ih =>
    rw [List.foldl_cons]
    have hb : (match m.content with
        | Ctx.Content.str s => a + Ctx.estimate_tokens s
        | Ctx.Content.parts l => l.foldl (fun t p => t + Ctx.partTokens p) a) =
        a + Ctx.msgTokens m := by
      cases h : m.content with
      | str s => simp [Ctx.msgTokens, h]
      | parts l => simp [Ctx.msgTokens, h, ctx_foldl_parts]
    rw [hb, ih]
    simp only [List.map_cons, List.sum_cons]
    omega

/-! ### C8 -/

/-- C8 counterexample: for the three-character text "abc" the code
computes 3 // 4 = 0, while the claimed formula max(1, len/4) gives 1,
so the claimed token estimate is wrong. -/
theorem c8_counterexample :
    ¬ (Ctx.estimate_tokens "abc" = max 1 ("abc".length / 4)) := by decide

/-- C8 amended: the estimated token count of a text span is
len(text) // 4, with 0 (not 1) for texts shorter than 4 characters, and
for a message with multi-part content the total is the sum of the
per-part estimates of its text parts (other parts contribute nothing),
summed across messages. -/
theorem c8_token_estimation_amended :
    (∀ msgs : List Ctx.Msg,
        Ctx.count_message_tokens msgs = (msgs.map Ctx.msgTokens).sum) ∧
    (∀ l : List Ctx.Part,
        Ctx.count_message_tokens [⟨.parts l⟩] = (l.map Ctx.partTokens).sum) ∧
    (∀ s : String,
        Ctx.estimate_tokens s = if s.length = 0 then 0 else s.length / 4) := by
  refine ⟨fun msgs => ?_, fun l => ?_, fun s => ?_⟩
  · unfold Ctx.count_message_tokens
    rw [ctx_foldl_msgs]
    simp
  · unfold Ctx.count_message_tokens
    rw [ctx_foldl_msgs]
    simp [Ctx.msgTokens]
  · obtain ⟨data⟩ := s
    cases data with
    | nil => rfl
    | cons c cs =>
      simp [Ctx.estimate_tokens, String.length, String.ext_iff]

/-! ### C7 -/

/-- Helper: over the ASCII range, a character kept by the sanitizer
filter (alphanumeric or underscore) is mapped by toUpper into an
uppercase letter, a digit, or the underscore. -/
theorem rel_char_upper_aux : ∀ n : Fin 128,
    ((Char.ofNat n.val).isAlphanum || (Char.ofNat n.val) == '_') = true →
    ((Char.ofNat n.val).toUpper.isUpper = true ∨ (Char.ofNat n.val).toUpper.isDigit = true ∨
      (Char.ofNat n.val).toUpper = '_') := by decide

/-- C7 counterexample: the caller-supplied relationship type
"helped_by_2" sanitizes to "HELPED_BY_2", which is interpolated into the
entity-linking query but contains the digit 2, so the interpolated type
does not match the claimed alphabet ^[A-Z_]+$. -/
theorem c7_counterexample :
    Rel.usedRelType "helped_by_2" = "HELPED_BY_2" ∧
    Rel.linkQueryFragment "helped_by_2" = "CREATE (m)-[:HELPED_BY_2]->(p)" ∧
    Rel.isUpperUnderscoreOnly (Rel.usedRelType "helped_by_2") = false := by decide

/-- C7 amended: for every ASCII caller-supplied relationship type, the
type interpolated into the graph query is nonempty and drawn from the
alphabet of uppercase letters, digits and underscores ([A-Z0-9_]+, not
[A-Z_]+: the sanitizer keeps alphanumerics, hence digits); an empty
sanitization result falls back to RELATES_TO, and only the sanitized
string is ever interpolated. -/
theorem c7_sanitize_amended (s : String) (hascii : ∀ c ∈ s.toList, c.toNat < 128) :
    Rel.usedRelType s ≠ "" ∧
    (∀ c ∈ (Rel.usedRelType s).toList,
        c.isUpper = true ∨ c.isDigit = true ∨ c = '_') ∧
    (Rel.sanitizeRelType s = "" → Rel.usedRelType s = "RELATES_TO") := by
  have hrel : ∀ c ∈ ("RELATES_TO" : String).toList,
      c.isUpper = true ∨ c.isDigit = true ∨ c = '_' := by decide
  refine ⟨?_, ?_, ?_⟩
  · by_cases h : Rel.sanitizeRelType s = "" <;> simp [Rel.usedRelType, h]
  · intro c hc
    by_cases h : Rel.sanitizeRelType s = ""
    · exact hrel c (by simpa [Rel.usedRelType, h] using hc)
    · have hc2 : c ∈ (Rel.sanitizeRelType s).toList := by
        simpa [Rel.usedRelType, h] using hc
      have he : (Rel.sanitizeRelType s).toList =
          (s.toList.filter (fun c => c.isAlphanum || c == '_')).map Char.toUpper := rfl
      rw [he] at hc2
      rw [List.mem_map] at hc2
      obtain ⟨c0, hc0, hup⟩ := hc2
      rw [List.mem_filter] at hc0
      have hlt : c0.toNat < 128 := hascii c0 hc0.1
      have := rel_char_upper_aux ⟨c0.toNat, hlt⟩ (by simpa [Char.ofNat_toNat] using hc0.2)
      rw [Char.ofNat_toNat] at this
      rw [← hup]
      exact this
  · intro h
    simp [Rel.usedRelType, h]

/-- C7 witness: the amended theorem applied to the ASCII input
"met_with", whose interpolated relationship type is MET_WITH. -/
theorem c7_witness :
    (∀ c ∈ ("met_with" : String).toList, c.toNat < 128) ∧
    (Rel.usedRelType "met_with" ≠ "" ∧
      (∀ c ∈ (Rel.usedRelType "met_with").toList,
          c.isUpper = true ∨ c.isDigit = true ∨ c = '_') ∧
      (Rel.sanitizeRelType "met_with" = "" → Rel.usedRelType "met_with" = "RELATES_TO")) :=
  ⟨by decide, c7_sanitize_amended "met_with" (by decide)⟩

/-! ### C10 -/

/-- C10: the delete_memory tool detach-deletes whatever node carries the
requested element id, whatever its label (Person, Agent, Conversation,
KnowledgeChunk, ... — the MATCH has no label), removing its incident
relationships, and answers "Memory deleted" exactly when such a node
existed and "Memory not found" otherwise. -/
theorem c10_delete_any_label (db : Del.GraphDB) (itemId : Nat) :
    ((Del.delete_memory db itemId).1 = "Memory deleted" ↔ ∃ n ∈ db.nodes, n.eid = itemId) ∧
    (∀ n ∈ db.nodes, (n ∈ (Del.delete_memory db itemId).2.nodes ↔ n.eid ≠ itemId)) ∧
    (∀ e ∈ db.edges,
        (e ∈ (Del.delete_memory db itemId).2.edges ↔ (e.1 ≠ itemId ∧ e.2 ≠ itemId))) := by
  have key : (0 < (db.nodes.filter (fun n => n.eid == itemId)).length) ↔
      ∃ n ∈ db.nodes, n.eid = itemId := by
    rw [List.length_pos]
    constructor
    · intro h
      obtain ⟨x, hx⟩ := List.exists_mem_of_ne_nil _ h
      rw [List.mem_filter] at hx
      exact ⟨x, hx.1, by simpa using hx.2⟩
    · rintro ⟨n, hn, he⟩ hnil
      have : n ∈ db.nodes.filter (fun n => n.eid == itemId) :=
        List.mem_filter.mpr ⟨hn, by simp [he]⟩
      rw [hnil] at this
      exact absurd this (List.not_mem_nil n)
  have hmsg : (Del.delete_memory db itemId).1 =
      if 0 < (db.nodes.filter (fun n => n.eid == itemId)).length
      then "Memory deleted" else "Memory not found" := rfl
  have hnodes : (Del.delete_memory db itemId).2.nodes =
      db.nodes.filter (fun n => n.eid != itemId) := rfl
  have hedges : (Del.delete_memory db itemId).2.edges =
      db.edges.filter (fun e => e.1 != itemId && e.2 != itemId) := rfl
  refine ⟨?_, ?_, ?_⟩
  · rw [hmsg]
    by_cases h : 0 < (db.nodes.filter (fun n => n.eid == itemId)).length
    · rw [if_pos h]
      exact ⟨fun _ => key.mp h, fun _ => rfl⟩
    · simp only [if_neg h]
      constructor
      · intro hfalse
        exact absurd hfalse (by decide)
      · intro hex
        exact absurd (key.mpr hex) h
  · intro n hn
    rw [hnodes]
    simp [List.mem_filter, hn]
  · intro e he
    rw [hedges]
    simp [List.mem_filter, he, and_assoc]

/-- C10 witness: deleting element id 7 from a store whose node 7 is a
Person removes the Person node and reports "Memory deleted". -/
theorem c10_witness :
    (Del.delete_memory Fix.delDB 7).1 = "Memory deleted" ∧
    (⟨7, "Person"⟩ : Del.GNode) ∉ (Del.delete_memory Fix.delDB 7).2.nodes :=
  ⟨(c10_delete_any_label Fix.delDB 7).1.mpr ⟨⟨7, "Person"⟩, by decide, rfl⟩,
   fun hmem =>
     ((c10_delete_any_label Fix.delDB 7).2.1 ⟨7, "Person"⟩ (by decide)).mp hmem rfl⟩

/-! ### C3 -/

/-- Helper: LLM-call bound of one graph run under a superstep budget:
starting at the model node at most (budget + 1) / 2 further calls are
made, starting at tools at most budget / 2. -/
theorem loop_runFrom_bound (stub : Nat → Bool) (b : Nat) :
    (∀ calls, (Loop.runFrom stub b .model calls).1 ≤ calls + (b + 1) / 2) ∧
    (∀ calls, (Loop.runFrom stub b .tools calls).1 ≤ calls + b / 2) := by
  induction b with
  | zero => constructor <;> intro calls <;> simp [Loop.runFrom]
  | succ b ih =>
    constructor
    · intro calls
      have step : Loop.runFrom stub (b + 1) .model calls =
          if stub calls then Loop.runFrom stub b .tools (calls + 1) else (calls + 1, true) := rfl
      rw [step]
      split
      · have := ih.2 (calls + 1)
        omega
      · dsimp only
        omega
    · intro calls
      have step : Loop.runFrom stub (b + 1) .tools calls =
          Loop.runFrom stub b .model calls := rfl
      rw [step]
      have := ih.1 calls
      omega

/-- Helper: with a stub that requests tool calls on every iteration, a
graph run makes exactly (budget + 1) / 2 calls from the model node
(budget / 2 from tools) and never reaches END. -/
theorem loop_runFrom_always (b : Nat) :
    (∀ calls, Loop.runFrom (fun _ => true) b .model calls = (calls + (b + 1) / 2, false)) ∧
    (∀ calls, Loop.runFrom (fun _ => true) b .tools calls = (calls + b / 2, false)) := by
  induction b with
  | zero => constructor <;> intro calls <;> simp [Loop.runFrom]
  | succ b ih =>
    constructor
    · intro calls
      have step : Loop.runFrom (fun _ => true) (b + 1) .model calls =
          Loop.runFrom (fun _ => true) b .tools (calls + 1) := rfl
      rw [step, ih.2 (calls + 1)]
      simp only [Prod.mk.injEq, and_true]
      omega
    · intro calls
      have step : Loop.runFrom (fun _ => true) (b + 1) .tools calls =
          Loop.runFrom (fun _ => true) b .model calls := rfl
      rw [step]
      exact ih.1 calls

/-- C3 counterexample: with max_tool_runs = 3 and a model stub that
requests a tool call on every iteration, the turn performs 4 LLM calls
(recursion_limit 2*3+1 = 7 supersteps: model, tools, model, tools,
model, tools, model, then a recursion error), not at most 3; and
stream_response never yields a metadata or done event (the router emits
done). -/
theorem c3_counterexample :
    Loop.stream_response_llm_calls (fun _ => true) 3 = 4 ∧
    ¬ (Loop.stream_response_llm_calls (fun _ => true) 3 ≤ 3) ∧
    "metadata" ∉ Loop.stream_event_types ∧
    "done" ∉ Loop.stream_event_types := by decide

/-- C3 amended: iteration is bounded but by max_tool_runs + 1 calls per
graph invocation, not max_tool_runs: one graph run under
recursion_limit = 2*max_tool_runs + 1 performs at most max_tool_runs + 1
LLM calls, a full turn (streaming run plus the second ainvoke run when
the first completes) performs at most 2*(max_tool_runs + 1), and with an
always-tool-calling stub the turn performs exactly max_tool_runs + 1
calls and stops with a recursion error instead of hanging. -/
theorem c3_bounded_iteration_amended (stub : Nat → Bool) (m : Nat) :
    (Loop.runGraphCalls stub (Loop.recursionLimit m)).1 ≤ m + 1 ∧
    Loop.stream_response_llm_calls stub m ≤ 2 * (m + 1) ∧
    Loop.stream_response_llm_calls (fun _ => true) m = m + 1 := by
  have h1 : (Loop.runGraphCalls stub (Loop.recursionLimit m)).1 ≤ m + 1 := by
    have e : Loop.runGraphCalls stub (Loop.recursionLimit m) =
        Loop.runFrom stub (2 * m + 1) .model 0 := rfl
    rw [e]
    have := (loop_runFrom_bound stub (2 * m + 1)).1 0
    omega
  have halways : Loop.runGraphCalls (fun _ => true) (Loop.recursionLimit m) = (m + 1, false) := by
    have e : Loop.runGraphCalls (fun _ => true) (Loop.recursionLimit m) =
        Loop.runFrom (fun _ => true) (2 * m + 1) .model 0 := rfl
    rw [e, (loop_runFrom_always (2 * m + 1)).1 0]
    simp only [Prod.mk.injEq, and_true]
    omega
  have e2 : ∀ st : Nat → Bool, Loop.stream_response_llm_calls st m =
      (if (Loop.runGraphCalls st (Loop.recursionLimit m)).2 = true
       then (Loop.runGraphCalls st (Loop.recursionLimit m)).1 +
            (Loop.runGraphCalls st (Loop.recursionLimit m)).1
       else (Loop.runGraphCalls st (Loop.recursionLimit m)).1) := fun _ => rfl
  refine ⟨h1, ?_, ?_⟩
  · rw [e2 stub]
    by_cases hc : (Loop.runGraphCalls stub (Loop.recursionLimit m)).2 = true
    · rw [if_pos hc]
      omega
    · rw [if_neg hc]
      omega
  · rw [e2 (fun _ => true), halways]
    simp

/-! ### C1 -/

/-- Helper: a top-1 hit of the Fact vector index is a stored node and
its score is the cosine of the query against that node's embedding. -/
theorem dup_bestFact_mem (cos : Nat → Nat → Score) (q : Nat) :
    ∀ (fs : List Dup.FactNode) (f : Dup.FactNode) (s : Score),
      Dup.bestFact cos q fs = some (f, s) → f ∈ fs ∧ s = cos q f.emb := by
  intro fs
  induction fs with
  | nil =>
    intro f s h
    exact absurd h (by simp [Dup.bestFact])
  | cons g gs ih =>
    intro f s h
    cases hb : Dup.bestFact cos q gs with
    | none =>
      simp only [Dup.bestFact, hb, Option.some.injEq, Prod.mk.injEq] at h
      obtain ⟨h1, h2⟩ := h
      subst h1
      subst h2
      exact ⟨List.mem_cons_self g gs, rfl⟩
    | some p =>
      obtain ⟨g2, sg⟩ := p
      simp only [Dup.bestFact, hb] at h
      split at h
      · simp only [Option.some.injEq, Prod.mk.injEq] at h
        obtain ⟨h1, h2⟩ := h
        subst h1
        subst h2
        exact ⟨List.mem_cons_of_mem g (ih _ _ hb).1, (ih _ _ hb).2⟩
      · simp only [Option.some.injEq, Prod.mk.injEq] at h
        obtain ⟨h1, h2⟩ := h
        subst h1
        subst h2
        exact ⟨List.mem_cons_self g gs, rfl⟩

/-- Helper: same statement for the Preference vector index. -/
theorem dup_bestPref_mem (cos : Nat → Nat → Score) (q : Nat) :
    ∀ (ps : List Dup.PrefNode) (p : Dup.PrefNode) (s : Score),
      Dup.bestPref cos q ps = some (p, s) → p ∈ ps ∧ s = cos q p.emb := by
  intro ps
  induction ps with
  | nil =>
    intro p s h
    exact absurd h (by simp [Dup.bestPref])
  | cons g gs ih =>
    intro p s h
    cases hb : Dup.bestPref cos q gs with
    | none =>
      simp only [Dup.bestPref, hb, Option.some.injEq, Prod.mk.injEq] at h
      obtain ⟨h1, h2⟩ := h
      subst h1
      subst h2
      exact ⟨List.mem_cons_self g gs, rfl⟩
    | some q2 =>
      obtain ⟨g2, sg⟩ := q2
      simp only [Dup.bestPref, hb] at h
      split at h
      · simp only [Option.some.injEq, Prod.mk.injEq] at h
        obtain ⟨h1, h2⟩ := h
        subst h1
        subst h2
        exact ⟨List.mem_cons_of_mem g (ih _ _ hb).1, (ih _ _ hb).2⟩
      · simp only [Option.some.injEq, Prod.mk.injEq] at h
        obtain ⟨h1, h2⟩ := h
        subst h1
        subst h2
        exact ⟨List.mem_cons_self g gs, rfl⟩

/-- C1 counterexample: inserting the near-duplicate fact
"Owns a red Tesla Model 3" next to the stored "Owns red Tesla Model 3"
(similarity 0.95 >= 0.93) leaves the store completely unchanged — no
new node, but also no in-place update of the existing node — and merely
returns the advisory message naming the existing id, score and content.
The claim asserts the existing node is updated in place. -/
theorem c1_counterexample :
    Dup.check_duplicate_Fact Fix.dupCos Fix.dupDB
        (Fix.dupEmbed (Dup.factEmbeddingText "Owns a red Tesla Model 3" "possession")) =
      ⟨true, some 0, 19/20, some "Owns red Tesla Model 3"⟩ ∧
    ((19 : Score)/20 ≥ 93/100) ∧
    Dup.add_fact Fix.dupCos Fix.dupEmbed Fix.dupDB "Owns a red Tesla Model 3" "possession" =
      (.similarFactExists (19/20) "Owns red Tesla Model 3" 0, Fix.dupDB) := by
  have htext : Dup.factEmbeddingText "Owns a red Tesla Model 3" "possession" =
      "Owns a red Tesla Model 3 possession" := rfl
  refine ⟨?_, by norm_num, ?_⟩
  · rw [htext]
    norm_num [Dup.check_duplicate_Fact, Dup.bestFact, Fix.dupCos, Fix.dupEmbed, Fix.dupDB]
  · norm_num [Dup.add_fact, Dup.check_duplicate_Fact, Dup.bestFact, htext,
      Fix.dupCos, Fix.dupEmbed, Fix.dupDB]

/-- C1 amended: when the new embedding of add_fact(content, category) or
add_preference(instruction) has cosine similarity >= 0.93 to an
existing node of the same label, no new node is created and the
existing node is NOT updated in place: the store is left unchanged and
the tool returns an advisory message carrying the existing node's
score, content and id (directing the caller to
update_fact_or_preference). check_duplicate reports the
(match?, id, score, content) 4-tuple of the top index hit, so callers
can distinguish "created new" from "duplicate found". -/
theorem c1_duplicate_guard_amended (cos : Nat → Nat → Score) (embed : String → Nat)
    (db : Dup.MemDB) (content category instruction : String) :
    ((Dup.check_duplicate_Fact cos db (embed (Dup.factEmbeddingText content category))).isDup = true →
      (Dup.add_fact cos embed db content category).2 = db ∧
      ∃ f ∈ db.facts,
        Dup.check_duplicate_Fact cos db (embed (Dup.factEmbeddingText content category)) =
          ⟨true, some f.eid, cos (embed (Dup.factEmbeddingText content category)) f.emb,
            some f.content⟩ ∧
        (93 : Score)/100 ≤ cos (embed (Dup.factEmbeddingText content category)) f.emb ∧
        (Dup.add_fact cos embed db content category).1 =
          .similarFactExists (cos (embed (Dup.factEmbeddingText content category)) f.emb)
            f.content f.eid) ∧
    ((Dup.check_duplicate_Pref cos db (embed instruction)).isDup = true →
      (Dup.add_preference cos embed db instruction).2 = db ∧
      ∃ p ∈ db.prefs,
        Dup.check_duplicate_Pref cos db (embed instruction) =
          ⟨true, some p.eid, cos (embed instruction) p.emb, some p.instruction⟩ ∧
        (93 : Score)/100 ≤ cos (embed instruction) p.emb ∧
        (Dup.add_preference cos embed db instruction).1 =
          .similarPrefExists (cos (embed instruction) p.emb) p.instruction p.eid) := by
  constructor
  · intro h
    cases hb : Dup.bestFact cos (embed (Dup.factEmbeddingText content category)) db.facts with
    | none =>
      exfalso
      unfold Dup.check_duplicate_Fact at h
      rw [hb] at h
      exact absurd h (by decide)
    | some pr =>
      obtain ⟨f0, s⟩ := pr
      obtain ⟨hmem, hs⟩ := dup_bestFact_mem cos _ db.facts f0 s hb
      by_cases hth : s ≥ (93 : Score)/100
      · have hcheck : Dup.check_duplicate_Fact cos db
            (embed (Dup.factEmbeddingText content category)) =
            ⟨true, some f0.eid, s, some f0.content⟩ := by
          unfold Dup.check_duplicate_Fact
          rw [hb]
          exact if_pos hth
        have hadd : Dup.add_fact cos embed db content category =
            (.similarFactExists s f0.content f0.eid, db) := by
          simp only [Dup.add_fact]
          rw [hcheck]
          simp
        subst hs
        exact ⟨by rw [hadd], f0, hmem, hcheck, hth, by rw [hadd]⟩
      · unfold Dup.check_duplicate_Fact at h
        rw [hb] at h
        have h2 : (if s ≥ (93 : Score)/100
            then (⟨true, some f0.eid, s, some f0.content⟩ : Dup.DupResult)
            else ⟨false, none, 0, none⟩).isDup = true := h
        rw [if_neg hth] at h2
        simp at h2
  · intro h
    cases hb : Dup.bestPref cos (embed instruction) db.prefs with
    | none =>
      exfalso
      unfold Dup.check_duplicate_Pref at h
      rw [hb] at h
      exact absurd h (by decide)
    | some pr =>
      obtain ⟨p0, s⟩ := pr
      obtain ⟨hmem, hs⟩ := dup_bestPref_mem cos _ db.prefs p0 s hb
      by_cases hth : s ≥ (93 : Score)/100
      · have hcheck : Dup.check_duplicate_Pref cos db (embed instruction) =
            ⟨true, some p0.eid, s, some p0.instruction⟩ := by
          unfold Dup.check_duplicate_Pref
          rw [hb]
          exact if_pos hth
        have hadd : Dup.add_preference cos embed db instruction =
            (.similarPrefExists s p0.instruction p0.eid, db) := by
          simp only [Dup.add_preference]
          rw [hcheck]
          simp
        subst hs
        exact ⟨by rw [hadd], p0, hmem, hcheck, hth, by rw [hadd]⟩
      · unfold Dup.check_duplicate_Pref at h
        rw [hb] at h
        have h2 : (if s ≥ (93 : Score)/100
            then (⟨true, some p0.eid, s, some p0.instruction⟩ : Dup.DupResult)
            else ⟨false, none, 0, none⟩).isDup = true := h
        rw [if_neg hth] at h2
        simp at h2

/-- C1 witness: the amended theorem applied to the concrete
near-duplicate store of the counterexample. -/
theorem c1_witness :
    (Dup.check_duplicate_Fact Fix.dupCos Fix.dupDB
        (Fix.dupEmbed (Dup.factEmbeddingText "Owns a red Tesla Model 3" "possession"))).isDup
      = true ∧
    ((Dup.add_fact Fix.dupCos Fix.dupEmbed Fix.dupDB "Owns a red Tesla Model 3"
        "possession").2 = Fix.dupDB ∧
      ∃ f ∈ Fix.dupDB.facts,
        Dup.check_duplicate_Fact Fix.dupCos Fix.dupDB
            (Fix.dupEmbed (Dup.factEmbeddingText "Owns a red Tesla Model 3" "possession")) =
          ⟨true, some f.eid,
            Fix.dupCos (Fix.dupEmbed (Dup.factEmbeddingText "Owns a red Tesla Model 3"
              "possession")) f.emb, some f.content⟩ ∧
        (93 : Score)/100 ≤ Fix.dupCos
            (Fix.dupEmbed (Dup.factEmbeddingText "Owns a red Tesla Model 3" "possession"))
            f.emb ∧
        (Dup.add_fact Fix.dupCos Fix.dupEmbed Fix.dupDB "Owns a red Tesla Model 3"
            "possession").1 =
          .similarFactExists
            (Fix.dupCos (Fix.dupEmbed (Dup.factEmbeddingText "Owns a red Tesla Model 3"
              "possession")) f.emb) f.content f.eid) :=
  ⟨by
    have htext : Dup.factEmbeddingText "Owns a red Tesla Model 3" "possession" =
        "Owns a red Tesla Model 3 possession" := rfl
    rw [htext]
    norm_num [Dup.check_duplicate_Fact, Dup.bestFact, Fix.dupCos, Fix.dupEmbed, Fix.dupDB],
   (c1_duplicate_guard_amended Fix.dupCos Fix.dupEmbed Fix.dupDB "Owns a red Tesla Model 3"
      "possession" "unused").1 (by
    have htext : Dup.factEmbeddingText "Owns a red Tesla Model 3" "possession" =
        "Owns a red Tesla Model 3 possession" := rfl
    rw [htext]
    norm_num [Dup.check_duplicate_Fact, Dup.bestFact, Fix.dupCos, Fix.dupEmbed, Fix.dupDB])⟩

/-! ### C6 -/

/-- C6 counterexample: "Alek" against the stored person "Aleksander"
with cosine similarity exactly 0.85: the claimed acceptance condition
(similarity >= 0.85, matching first characters, length gap 6 <= 6)
holds, yet the code — which tests sim > 0.85 strictly — rejects the
alias and creates a brand-new Person with a fresh id and no alias
update. -/
theorem c6_counterexample :
    ((17 : Score)/20 ≥ 85/100) ∧
    Canon.pyLowerFirst "Alek" = Canon.pyLowerFirst "Aleksander" ∧
    ((("Alek".length : Int) - ("Aleksander".length : Int)).natAbs ≤ 6) ∧
    Fix.canonCos (Fix.canonEmbed "Alek") 20 = 17/20 ∧
    Canon._canonicalize_person Fix.canonCos Fix.canonEmbed Fix.canonDB "Alek" =
      (1, ⟨[⟨0, "Aleksander", [], some 20, ""⟩, ⟨1, "Alek", [], some 21, ""⟩], 2⟩) := by
  have hexact : Fix.canonDB.persons.find?
      (fun p => p.name == "Alek" || p.aliases.contains "Alek") = none := by decide
  have hheu : Canon.aliasHeuristic Fix.canonCos (Fix.canonEmbed "Alek") "Alek"
      ⟨0, "Aleksander", [], some 20, ""⟩ = false := by
    norm_num [Canon.aliasHeuristic, Fix.canonCos, Fix.canonEmbed]
  have hnone : Fix.canonDB.persons.find?
      (Canon.aliasHeuristic Fix.canonCos (Fix.canonEmbed "Alek") "Alek") = none := by
    have e : Fix.canonDB.persons = [⟨0, "Aleksander", [], some 20, ""⟩] := rfl
    rw [e]
    simp [List.find?, hheu]
  refine ⟨by norm_num, by decide, by decide, by norm_num [Fix.canonCos, Fix.canonEmbed], ?_⟩
  simp only [Canon._canonicalize_person]
  rw [hexact, hnone]
  rfl

/-- C6 amended: when no exact name or alias match exists, an existing
Person is accepted as the alias target if and only if the cosine
similarity is STRICTLY greater than 0.85 (the code tests sim > 0.85,
not >= 0.85) and the first characters match case-insensitively and the
name lengths differ by at most 6 (the first stored person passing the
heuristic wins); on acceptance the name is appended to that person's
aliases and that person's id is returned, so two names passing the
heuristic (e.g. "Alek" and "Aleksander") yield the same Person id; when
no person passes, a fresh Person with a new id is created. -/
theorem c6_canonicalization_amended (cos : Nat → Nat → Score) (embed : String → Nat)
    (st : Canon.People) (name : String)
    (hexact : st.persons.find? (fun p => p.name == name || p.aliases.contains name) = none) :
    (∀ p, st.persons.find? (Canon.aliasHeuristic cos (embed name) name) = some p →
      p ∈ st.persons ∧
      (∃ e, p.emb = some e ∧ cos (embed name) e > 85/100 ∧
        Canon.pyLowerFirst name = Canon.pyLowerFirst p.name ∧
        ((name.length : Int) - (p.name.length : Int)).natAbs ≤ 6) ∧
      (Canon._canonicalize_person cos embed st name).1 = p.pid ∧
      (∃ q ∈ (Canon._canonicalize_person cos embed st name).2.persons,
        q.pid = p.pid ∧ q.name = p.name ∧ q.aliases = p.aliases ++ [name])) ∧
    (st.persons.find? (Canon.aliasHeuristic cos (embed name) name) = none →
      (∀ p ∈ st.persons, p.pid < st.nextPid) →
      (Canon._canonicalize_person cos embed st name).1 = st.nextPid ∧
      (∀ p ∈ st.persons, p.pid ≠ (Canon._canonicalize_person cos embed st name).1) ∧
      (Canon._canonicalize_person cos embed st name).2.persons =
        st.persons ++ [⟨st.nextPid, name, [], some (embed name), ""⟩]) := by
  constructor
  · intro p hfind
    have hmem : p ∈ st.persons := List.mem_of_find?_eq_some hfind
    have hheu : Canon.aliasHeuristic cos (embed name) name p = true :=
      List.find?_some hfind
    have hres : Canon._canonicalize_person cos embed st name =
        (p.pid,
         { st with persons := st.persons.map (fun q =>
             if q.pid == p.pid then { q with aliases := q.aliases ++ [name] } else q) }) := by
      simp only [Canon._canonicalize_person]
      rw [hexact, hfind]
    refine ⟨hmem, ?_, by rw [hres], ?_⟩
    · unfold Canon.aliasHeuristic at hheu
      cases he : p.emb with
      | none =>
        rw [he] at hheu
        simp at hheu
      | some e =>
        rw [he] at hheu
        simp only [Bool.and_eq_true, decide_eq_true_eq, beq_iff_eq] at hheu
        exact ⟨e, rfl, hheu.1.1, hheu.1.2, hheu.2⟩
    · refine ⟨{ p with aliases := p.aliases ++ [name] }, ?_, rfl, rfl, rfl⟩
      rw [hres]
      have : ({ p with aliases := p.aliases ++ [name] } : Canon.Person) =
          (fun q => if q.pid == p.pid then { q with aliases := q.aliases ++ [name] } else q) p := by
        simp
      rw [this]
      exact List.mem_map_of_mem _ hmem
  · intro hnone hwf
    have hres : Canon._canonicalize_person cos embed st name =
        (st.nextPid,
         { st with persons := st.persons ++ [⟨st.nextPid, name, [], some (embed name), ""⟩],
                   nextPid := st.nextPid + 1 }) := by
      simp only [Canon._canonicalize_person]
      rw [hexact, hnone]
    refine ⟨by rw [hres], ?_, by rw [hres]⟩
    intro p hp
    rw [hres]
    exact Nat.ne_of_lt (hwf p hp)

/-- C6 witness: with similarity 0.9 the amended theorem applied twice —
creating "Aleksander" in an empty store yields Person id 0, and
canonicalizing "Alek" afterwards returns the same id 0 with "Alek"
appended to the aliases of "Aleksander". -/
theorem c6_witness :
    (Canon._canonicalize_person Fix.canonCosW Fix.canonEmbed ⟨[], 0⟩ "Aleksander").1 = 0 ∧
    (Canon._canonicalize_person Fix.canonCosW Fix.canonEmbed Fix.canonDB "Alek").1 = 0 ∧
    (∃ q ∈ (Canon._canonicalize_person Fix.canonCosW Fix.canonEmbed Fix.canonDB
        "Alek").2.persons,
      q.pid = 0 ∧ q.name = "Aleksander" ∧ q.aliases = [] ++ ["Alek"]) := by
  have hch1 : Canon.pyLowerFirst "Alek" = 'a' := by decide
  have hch2 : Canon.pyLowerFirst "Aleksander" = 'a' := by decide
  have hlen : (("Alek".length : Int) - ("Aleksander".length : Int)).natAbs = 6 := by decide
  have hheu : Canon.aliasHeuristic Fix.canonCosW (Fix.canonEmbed "Alek") "Alek"
      ⟨0, "Aleksander", [], some 20, ""⟩ = true := by
    norm_num [Canon.aliasHeuristic, Fix.canonCosW, Fix.canonEmbed, hch1, hch2, hlen]
  have hfindW : Fix.canonDB.persons.find?
      (Canon.aliasHeuristic Fix.canonCosW (Fix.canonEmbed "Alek") "Alek") =
      some ⟨0, "Aleksander", [], some 20, ""⟩ := by
    have e : Fix.canonDB.persons = [⟨0, "Aleksander", [], some 20, ""⟩] := rfl
    rw [e]
    simp [List.find?, hheu]
  have h1 := (c6_canonicalization_amended Fix.canonCosW Fix.canonEmbed ⟨[], 0⟩ "Aleksander"
    (by simp [List.find?])).2 (by simp [List.find?]) (by simp)
  have h2 := (c6_canonicalization_amended Fix.canonCosW Fix.canonEmbed Fix.canonDB "Alek"
    (by decide)).1 ⟨0, "Aleksander", [], some 20, ""⟩ hfindW
  exact ⟨h1.1, h2.2.2.1, h2.2.2.2⟩

/-! ### Helpers: retrieval fold and sort -/

/-- Helper: the image of a stored candidate under one structural-row
application stays in the dict (boosted when its eid matches the row,
untouched otherwise). -/
theorem retr_apply_mem (cands : List Retr.Cand) (row : Retr.SubRow) (c : Retr.Cand)
    (hc : c ∈ cands) :
    (if c.eid == row.eid
     then ({ c with score := max c.score (9/10 + 5/100), relationship := some row.rel } : Retr.Cand)
     else c) ∈ Retr.applyStructuralRow cands row := by
  by_cases hany : (cands.any fun x => x.eid == row.eid) = true
  · simp only [Retr.applyStructuralRow, hany, if_true]
    exact List.mem_map_of_mem _ hc
  · have hany2 : (cands.any fun x => x.eid == row.eid) = false := by
      rwa [Bool.not_eq_true] at hany
    have hcf : (c.eid == row.eid) = false := by
      rw [List.any_eq_false] at hany2
      have := hany2 c hc
      rwa [Bool.not_eq_true] at this
    simp only [hcf, Bool.false_eq_true, if_false]
    simp only [Retr.applyStructuralRow, hany2, Bool.false_eq_true, if_false]
    exact List.mem_append_left _ hc

/-- Helper: a candidate whose eid is touched by no remaining row
survives the structural fold unchanged. -/
theorem retr_pres_exact (rows : List Retr.SubRow) :
    ∀ (cands : List Retr.Cand) (c : Retr.Cand), c ∈ cands →
      (∀ row ∈ rows, row.eid ≠ c.eid) →
      c ∈ rows.foldl Retr.applyStructuralRow cands := by
  induction rows with
  | nil =>
    intro cands c hc _
    exact hc
  | cons r rs ih =>
    intro cands c hc hne
    rw [List.foldl_cons]
    have hr : r.eid ≠ c.eid := hne r (List.mem_cons_self r rs)
    have hcf : (c.eid == r.eid) = false := by
      exact beq_eq_false_iff_ne.mpr (fun h => hr h.symm)
    have himg := retr_apply_mem cands r c hc
    simp only [hcf, Bool.false_eq_true, if_false] at himg
    exact ih _ c himg (fun row hrow => hne row (List.mem_cons_of_mem _ hrow))

/-- Helper: a candidate already at a score at least
structural_score + 0.05 keeps that exact score through the whole fold
(further boosts are absorbed by max). -/
theorem retr_pres_boosted (rows : List Retr.SubRow) :
    ∀ (cands : List Retr.Cand) (e : Nat) (w : Score), (9/10 + 5/100 : Score) ≤ w →
      (∃ c ∈ cands, c.eid = e ∧ c.score = w) →
      ∃ c ∈ rows.foldl Retr.applyStructuralRow cands, c.eid = e ∧ c.score = w := by
  induction rows with
  | nil =>
    intro cands e w _ hex
    exact hex
  | cons r rs ih =>
    intro cands e w hw hex
    obtain ⟨c, hcm, hce, hcs⟩ := hex
    rw [List.foldl_cons]
    have himg := retr_apply_mem cands r c hcm
    by_cases hcr : (c.eid == r.eid) = true
    · rw [if_pos hcr] at himg
      refine ih _ e w hw ⟨_, himg, hce, ?_⟩
      show max c.score (9/10 + 5/100) = w
      rw [hcs]
      exact max_eq_left hw
    · have hcf : (c.eid == r.eid) = false := by rwa [Bool.not_eq_true] at hcr
      simp only [hcf, Bool.false_eq_true, if_false] at himg
      exact ih _ e w hw ⟨c, himg, hce, hcs⟩

/-- Helper: a candidate with score at least 0.9 at some eid stays
present with score at least 0.9 through the structural fold. -/
theorem retr_pres_ge (rows : List Retr.SubRow) :
    ∀ (cands : List Retr.Cand) (e : Nat),
      (∃ c ∈ cands, c.eid = e ∧ (9 : Score)/10 ≤ c.score) →
      ∃ c ∈ rows.foldl Retr.applyStructuralRow cands, c.eid = e ∧ (9 : Score)/10 ≤ c.score := by
  induction rows with
  | nil =>
    intro cands e hex
    exact hex
  | cons r rs ih =>
    intro cands e hex
    obtain ⟨c, hcm, hce, hcs⟩ := hex
    rw [List.foldl_cons]
    have himg := retr_apply_mem cands r c hcm
    by_cases hcr : (c.eid == r.eid) = true
    · rw [if_pos hcr] at himg
      refine ih _ e ⟨_, himg, hce, ?_⟩
      show (9 : Score)/10 ≤ max c.score (9/10 + 5/100)
      exact le_trans (by norm_num) (le_max_right c.score (9/10 + 5/100))
    · have hcf : (c.eid == r.eid) = false := by rwa [Bool.not_eq_true] at hcr
      simp only [hcf, Bool.false_eq_true, if_false] at himg
      exact ih _ e ⟨c, himg, hce, hcs⟩

/-- Helper: every subgraph row leaves a candidate with its eid and a
score at least 0.9 in the folded dict (either the pure structural 0.9
entry or a boosted one). -/
theorem retr_fold_ge (rows : List Retr.SubRow) :
    ∀ (cands : List Retr.Cand) (row : Retr.SubRow), row ∈ rows →
      ∃ c ∈ rows.foldl Retr.applyStructuralRow cands,
        c.eid = row.eid ∧ (9 : Score)/10 ≤ c.score := by
  induction rows with
  | nil =>
    intro _ row h
    exact absurd h (List.not_mem_nil row)
  | cons r rs ih =>
    intro cands row hrow
    rw [List.foldl_cons]
    rcases List.mem_cons.mp hrow with heq | hmem
    · subst heq
      have step : ∃ c ∈ Retr.applyStructuralRow cands row,
          c.eid = row.eid ∧ (9 : Score)/10 ≤ c.score := by
        by_cases hany : (cands.any fun x => x.eid == row.eid) = true
        · obtain ⟨c, hc, hcr⟩ := List.any_eq_true.mp hany
          have himg := retr_apply_mem cands row c hc
          rw [if_pos hcr] at himg
          refine ⟨_, himg, ?_, ?_⟩
          · show c.eid = row.eid
            exact eq_of_beq hcr
          · exact le_trans (by norm_num) (le_max_right c.score (9/10 + 5/100))
        · have hany2 : (cands.any fun x => x.eid == row.eid) = false := by
            rwa [Bool.not_eq_true] at hany
          refine ⟨⟨row.eid, row.mtype, row.summary, 9/10, "graph", some row.rel⟩, ?_, rfl,
            le_refl _⟩
          simp only [Retr.applyStructuralRow, hany2, Bool.false_eq_true, if_false]
          exact List.mem_append_right _ (List.mem_singleton.mpr rfl)
      exact retr_pres_ge rs _ row.eid step
    · exact ih _ row hmem

/-- Helper: a semantic candidate at eid e whose eid also occurs among
the subgraph rows ends the fold with the merged score
max(vector score, structural score + 0.05). -/
theorem retr_boost_exists (rows : List Retr.SubRow) :
    ∀ (cands : List Retr.Cand) (e : Nat) (v : Score),
      (∃ c ∈ cands, c.eid = e ∧ c.score = v) →
      (∃ row ∈ rows, row.eid = e) →
      ∃ c ∈ rows.foldl Retr.applyStructuralRow cands,
        c.eid = e ∧ c.score = max v (9/10 + 5/100) := by
  induction rows with
  | nil =>
    intro _ e v _ hrow
    obtain ⟨row, h, _⟩ := hrow
    exact absurd h (List.not_mem_nil row)
  | cons r rs ih =>
    intro cands e v hc hrow
    obtain ⟨c, hcm, hce, hcv⟩ := hc
    rw [List.foldl_cons]
    by_cases hre : r.eid = e
    · have hcr : (c.eid == r.eid) = true := by
        rw [hce, hre]
        exact beq_self_eq_true e
      have himg := retr_apply_mem cands r c hcm
      rw [if_pos hcr] at himg
      refine retr_pres_boosted rs _ e _ (le_max_right v (9/10 + 5/100)) ⟨_, himg, hce, ?_⟩
      show max c.score (9/10 + 5/100) = max v (9/10 + 5/100)
      rw [hcv]
    · obtain ⟨row, hrm, hr_e⟩ := hrow
      have hrow2 : ∃ row ∈ rs, row.eid = e := by
        rcases List.mem_cons.mp hrm with h1 | h2
        · exact absurd (h1 ▸ hr_e) hre
        · exact ⟨row, h2, hr_e⟩
      have hcf : (c.eid == r.eid) = false := by
        rw [hce]
        exact beq_eq_false_iff_ne.mpr (fun h => hre h.symm)
      have himg := retr_apply_mem cands r c hcm
      simp only [hcf, Bool.false_eq_true, if_false] at himg
      exact ih _ e v ⟨c, himg, hce, hcv⟩ hrow2

/-- Helper: a subgraph row whose eid is absent from the semantic dict
and unique among the rows produces exactly the pure structural entry:
score 0.9, source graph. -/
theorem retr_graph_added (rows : List Retr.SubRow) :
    ∀ (cands : List Retr.Cand) (e : Nat),
      (∀ c ∈ cands, c.eid ≠ e) →
      ((rows.map Retr.SubRow.eid).Nodup) →
      (∃ row ∈ rows, row.eid = e) →
      ∃ c ∈ rows.foldl Retr.applyStructuralRow cands,
        c.eid = e ∧ c.score = 9/10 ∧ c.source = "graph" := by
  induction rows with
  | nil =>
    intro _ e _ _ hrow
    obtain ⟨row, h, _⟩ := hrow
    exact absurd h (List.not_mem_nil row)
  | cons r rs ih =>
    intro cands e hno hnodup hrow
    rw [List.foldl_cons]
    simp only [List.map_cons, List.nodup_cons] at hnodup
    by_cases hre : r.eid = e
    · have hany : (cands.any fun x => x.eid == r.eid) = false := by
        rw [List.any_eq_false]
        intro x hx
        rw [Bool.not_eq_true]
        exact beq_eq_false_iff_ne.mpr (by rw [hre]; exact hno x hx)
      have hstep : (⟨r.eid, r.mtype, r.summary, 9/10, "graph", some r.rel⟩ : Retr.Cand) ∈
          Retr.applyStructuralRow cands r := by
        simp only [Retr.applyStructuralRow, hany, Bool.false_eq_true, if_false]
        exact List.mem_append_right _ (List.mem_singleton.mpr rfl)
      have hrs : ∀ row ∈ rs,
          row.eid ≠ (⟨r.eid, r.mtype, r.summary, 9/10, "graph", some r.rel⟩ : Retr.Cand).eid := by
        intro row hrowm hx
        have hx2 : row.eid = r.eid := hx
        exact hnodup.1 (hx2 ▸ List.mem_map_of_mem Retr.SubRow.eid hrowm)
      exact ⟨_, retr_pres_exact rs _ _ hstep hrs, hre, rfl, rfl⟩
    · have hno2 : ∀ c ∈ Retr.applyStructuralRow cands r, c.eid ≠ e := by
        intro c hcmem
        unfold Retr.applyStructuralRow at hcmem
        split at hcmem
        · rw [List.mem_map] at hcmem
          obtain ⟨c0, hc0, hc0e⟩ := hcmem
          rw [← hc0e]
          split
          · exact hno c0 hc0
          · exact hno c0 hc0
        · rw [List.mem_append] at hcmem
          rcases hcmem with hin | hnew
          · exact hno c hin
          · rw [List.mem_singleton] at hnew
            rw [hnew]
            exact hre
      obtain ⟨row, hrm, hr_e⟩ := hrow
      have hrow2 : ∃ row ∈ rs, row.eid = e := by
        rcases List.mem_cons.mp hrm with h1 | h2
        · exact absurd (h1 ▸ hr_e) hre
        · exact ⟨row, h2, hr_e⟩
      exact ih _ e hno2 hnodup.2 hrow2

/-- Helper: members of the limited subgraph are rows of the unsorted
subgraph (sorting permutes, take selects). -/
theorem retr_subgraph_sub (st : Retr.Store) (pid limit : Nat) :
    ∀ row ∈ Retr._get_entity_subgraph st pid limit, row ∈ Retr.subRowsUnsorted st pid := by
  intro row h
  unfold Retr._get_entity_subgraph at h
  exact (List.perm_insertionSort Retr.subRowOrder _).mem_iff.mp (List.take_subset _ _ h)

/-- Helper: a nonempty unsorted subgraph stays nonempty after sorting
and taking a positive limit. -/
theorem retr_subgraph_ne (st : Retr.Store) (pid limit : Nat)
    (h : Retr.subRowsUnsorted st pid ≠ []) (hl : 0 < limit) :
    Retr._get_entity_subgraph st pid limit ≠ [] := by
  unfold Retr._get_entity_subgraph
  intro hnil
  have hlen := congrArg List.length hnil
  rw [List.length_take] at hlen
  have hsp := (List.perm_insertionSort Retr.subRowOrder (Retr.subRowsUnsorted st pid)).length_eq
  simp only [List.length_nil] at hlen
  have : Retr.subRowsUnsorted st pid = [] := by
    apply List.length_eq_zero.mp
    omega
  exact h this

/-- Helper: every unsorted subgraph row comes from a relationship of
the entity, with the row eid equal to the linked memory node. -/
theorem retr_row_link (st : Retr.Store) (pid : Nat) (row : Retr.SubRow)
    (hrow : row ∈ Retr.subRowsUnsorted st pid) :
    ∃ l ∈ st.links, l.mem = row.eid ∧ l.person = pid := by
  unfold Retr.subRowsUnsorted at hrow
  rw [List.mem_filterMap] at hrow
  obtain ⟨l, hl, hfl⟩ := hrow
  refine ⟨l, hl, ?_⟩
  by_cases hp : (l.person == pid) = true
  · rw [if_pos hp] at hfl
    cases hm : st.mems.find? (fun m => m.eid == l.mem) with
    | none =>
      rw [hm] at hfl
      exact absurd hfl (by simp)
    | some m =>
      rw [hm] at hfl
      have hme0 := List.find?_some hm
      have hme : (m.eid == l.mem) = true := hme0
      simp only [Option.some.injEq] at hfl
      constructor
      · rw [← hfl]
        exact (eq_of_beq hme).symm
      · exact eq_of_beq hp
  · have hpf : (l.person == pid) = false := by rwa [Bool.not_eq_true] at hp
    simp only [hpf, Bool.false_eq_true, if_false] at hfl
    exact absurd hfl (by simp)

/-- Helper: exact-word entity detection returns the first matching
person's id. -/
theorem retr_detect_exact (cos : Nat → Nat → Score) (ratio : String → String → Score)
    (persons : List Retr.PersonR) (msg : String) (msgEmb : Nat) (p : Retr.PersonR)
    (hfind : persons.find? (Retr.exactMatchPerson (Retr._extract_words_from_message msg)) =
      some p) :
    Retr._detect_entity_hybrid cos ratio persons msg msgEmb = some p.pid := by
  have hne : persons ≠ [] := List.ne_nil_of_mem (List.mem_of_find?_eq_some hfind)
  have hemp : persons.isEmpty = false := by
    cases persons with
    | nil => exact absurd rfl hne
    | cons a l => rfl
  simp only [Retr._detect_entity_hybrid, hemp, Bool.false_eq_true, if_false]
  rw [hfind]

/-- Helper: in a descending-sorted candidate list every element at or
above a threshold sits within the first countP positions. -/
theorem retr_sorted_take (θ : Score) :
    ∀ (L : List Retr.Cand), L.Sorted Retr.candOrder →
      ∀ c ∈ L, θ ≤ c.score →
        c ∈ L.take (L.countP (fun x => decide (θ ≤ x.score))) := by
  intro L
  induction L with
  | nil =>
    intro _ c hc _
    exact absurd hc (List.not_mem_nil c)
  | cons h t ih =>
    intro hsort c hc hθ
    have hrel := List.sorted_cons.mp hsort
    by_cases hh : θ ≤ h.score
    · have hcount : ((h :: t).countP (fun x => decide (θ ≤ x.score))) =
          (t.countP fun x => decide (θ ≤ x.score)) + 1 := by
        rw [List.countP_cons]
        simp [hh]
      rw [hcount, List.take_succ_cons]
      rcases List.mem_cons.mp hc with hceq | hct
      · rw [hceq]
        exact List.mem_cons_self _ _
      · exact List.mem_cons_of_mem _ (ih hrel.2 c hct hθ)
    · exfalso
      rcases List.mem_cons.mp hc with hceq | hct
      · rw [hceq] at hθ
        exact hh hθ
      · exact hh (le_trans hθ (hrel.1 c hct))

/-- Helper: membership in a shorter take carries to a longer take. -/
theorem retr_take_mono {α : Type} {L : List α} {n k : Nat} {c : α} (hnk : n ≤ k)
    (hc : c ∈ L.take n) : c ∈ L.take k := by
  have e : L.take n = (L.take k).take n := by
    rw [List.take_take, Nat.min_eq_left hnk]
  rw [e] at hc
  exact List.take_subset _ _ hc

/-! ### C5 -/

/-- C5 counterexample: person "ola" detected, the single linked memory
is also a semantic hit with vector score 0.93; the merged score in the
candidate dict is max(0.93, 0.9 + 0.05) = 0.95, whereas the claimed
formula max(vector score, structural score) + 0.05 gives 0.98. -/
theorem c5_counterexample :
    Retr._detect_entity_hybrid Fix.r5cos Fix.zeroRatio Fix.r5st.persons "ola x" 10 = some 1 ∧
    Retr.candidates Fix.r5cos Fix.zeroRatio Fix.r5st "ola x" 10 1 =
      [⟨1, "fact", "m one", 19/20, "semantic", some "KNOWS"⟩] ∧
    ¬ ((19 : Score)/20 = max (93/100) (9/10) + 5/100) := by
  have hdet : Retr._detect_entity_hybrid Fix.r5cos Fix.zeroRatio Fix.r5st.persons "ola x" 10 =
      some 1 := by decide
  have hsem : Retr.semanticCands Fix.r5cos Fix.r5st 10 =
      [⟨1, "fact", "m one", 93/100, "semantic", none⟩] := by
    norm_num [Retr.semanticCands, Fix.r5st, Fix.r5cos, List.filterMap]
  have hrows : Retr._get_entity_subgraph Fix.r5st 1 (1 * 2) =
      [⟨1, "fact", "m one", "KNOWS", 1, 1⟩] := rfl
  have happ : Retr.applyStructuralRow [⟨1, "fact", "m one", 93/100, "semantic", none⟩]
      ⟨1, "fact", "m one", "KNOWS", 1, 1⟩ =
      [⟨1, "fact", "m one", 19/20, "semantic", some "KNOWS"⟩] := by
    norm_num [Retr.applyStructuralRow, max_def]
  refine ⟨hdet, ?_, by norm_num⟩
  simp only [Retr.candidates, hdet, hsem, hrows, List.foldl_cons, List.foldl_nil, happ]

/-- C5 amended: when an entity is detected, retrieval fetches up to
2*limit memories linked to that entity; a linked memory absent from the
vector set enters the dict with the pure structural score 0.9 and
source graph; and a memory in both the vector and structural sets gets
the merged score max(vector score, structural score + 0.05) — the
+0.05 boost applies to the structural score inside the max, not to the
max itself. -/
theorem c5_merge_scoring_amended (cos : Nat → Nat → Score) (ratio : String → String → Score)
    (st : Retr.Store) (msg : String) (msgEmb : Nat) (k : Nat) (pid : Nat)
    (hdet : Retr._detect_entity_hybrid cos ratio st.persons msg msgEmb = some pid) :
    (Retr._get_entity_subgraph st pid (k * 2)).length ≤ k * 2 ∧
    (∀ e v, (∃ c ∈ Retr.semanticCands cos st msgEmb, c.eid = e ∧ c.score = v) →
      (∃ row ∈ Retr._get_entity_subgraph st pid (k * 2), row.eid = e) →
      ∃ c ∈ Retr.candidates cos ratio st msg msgEmb k,
        c.eid = e ∧ c.score = max v (9/10 + 5/100)) ∧
    (∀ e, (∀ c ∈ Retr.semanticCands cos st msgEmb, c.eid ≠ e) →
      ((Retr._get_entity_subgraph st pid (k * 2)).map Retr.SubRow.eid).Nodup →
      (∃ row ∈ Retr._get_entity_subgraph st pid (k * 2), row.eid = e) →
      ∃ c ∈ Retr.candidates cos ratio st msg msgEmb k,
        c.eid = e ∧ c.score = 9/10 ∧ c.source = "graph") := by
  have hc4 : Retr.candidates cos ratio st msg msgEmb k =
      (Retr._get_entity_subgraph st pid (k * 2)).foldl Retr.applyStructuralRow
        (Retr.semanticCands cos st msgEmb) := by
    simp only [Retr.candidates]
    rw [hdet]
  refine ⟨?_, ?_, ?_⟩
  · unfold Retr._get_entity_subgraph
    exact List.length_take_le _ _
  · intro e v hsem hrow
    rw [hc4]
    exact retr_boost_exists _ _ e v hsem hrow
  · intro e hno hnodup hrow
    rw [hc4]
    exact retr_graph_added _ _ e hno hnodup hrow

/-- C5 witness: the amended theorem applied to the concrete "ola"
store, where the merged score of the shared memory is
max(0.93, 0.95) = 0.95. -/
theorem c5_witness :
    Retr._detect_entity_hybrid Fix.r5cos Fix.zeroRatio Fix.r5st.persons "ola x" 10 = some 1 ∧
    (∃ c ∈ Retr.semanticCands Fix.r5cos Fix.r5st 10, c.eid = 1 ∧ c.score = 93/100) ∧
    (∃ row ∈ Retr._get_entity_subgraph Fix.r5st 1 (1 * 2), row.eid = 1) ∧
    (∃ c ∈ Retr.candidates Fix.r5cos Fix.zeroRatio Fix.r5st "ola x" 10 1,
      c.eid = 1 ∧ c.score = max (93/100) (9/10 + 5/100)) := by
  have hdet : Retr._detect_entity_hybrid Fix.r5cos Fix.zeroRatio Fix.r5st.persons "ola x" 10 =
      some 1 := by decide
  have hsem : Retr.semanticCands Fix.r5cos Fix.r5st 10 =
      [⟨1, "fact", "m one", 93/100, "semantic", none⟩] := by
    norm_num [Retr.semanticCands, Fix.r5st, Fix.r5cos, List.filterMap]
  have hrows : Retr._get_entity_subgraph Fix.r5st 1 (1 * 2) =
      [⟨1, "fact", "m one", "KNOWS", 1, 1⟩] := rfl
  have hsemx : ∃ c ∈ Retr.semanticCands Fix.r5cos Fix.r5st 10, c.eid = 1 ∧ c.score = 93/100 := by
    rw [hsem]
    exact ⟨_, List.mem_singleton.mpr rfl, rfl, rfl⟩
  have hrowx : ∃ row ∈ Retr._get_entity_subgraph Fix.r5st 1 (1 * 2), row.eid = 1 := by
    rw [hrows]
    exact ⟨_, List.mem_singleton.mpr rfl, rfl⟩
  exact ⟨hdet, hsemx, hrowx,
    (c5_merge_scoring_amended Fix.r5cos Fix.zeroRatio Fix.r5st "ola x" 10 1 1 hdet).2.1
      1 (93/100) hsemx hrowx⟩

/-! ### C4 -/

/-- C4 counterexample: the query "alek zz" contains the stored person
"alek" as an exact word, that person has a linked memory, detection
succeeds — yet the top-1 output is the unlinked semantic memory with
vector score 0.99, which outranks the linked memory's structural score
0.9, so no memory linked to the detected person reaches the top-k. -/
theorem c4_counterexample :
    Retr._detect_entity_hybrid Fix.r4cos Fix.zeroRatio Fix.r4st.persons "alek zz" 10 = some 1 ∧
    Retr.subRowsUnsorted Fix.r4st 1 ≠ [] ∧
    Retr.sortedTopK Fix.r4cos Fix.zeroRatio Fix.r4st "alek zz" 10 1 =
      [⟨2, "fact", "m free", 99/100, "semantic", none⟩] ∧
    ¬ (∃ c ∈ Retr.sortedTopK Fix.r4cos Fix.zeroRatio Fix.r4st "alek zz" 10 1,
        ∃ l ∈ Fix.r4st.links, l.mem = c.eid ∧ l.person = 1) := by
  have hdet : Retr._detect_entity_hybrid Fix.r4cos Fix.zeroRatio Fix.r4st.persons "alek zz" 10 =
      some 1 := by decide
  have hsem : Retr.semanticCands Fix.r4cos Fix.r4st 10 =
      [⟨2, "fact", "m free", 99/100, "semantic", none⟩] := by
    norm_num [Retr.semanticCands, Fix.r4st, Fix.r4cos, List.filterMap]
  have hrows : Retr._get_entity_subgraph Fix.r4st 1 (1 * 2) =
      [⟨1, "event", "m linked", "KNOWS", 1, 1⟩] := rfl
  have happ : Retr.applyStructuralRow [⟨2, "fact", "m free", 99/100, "semantic", none⟩]
      ⟨1, "event", "m linked", "KNOWS", 1, 1⟩ =
      [⟨2, "fact", "m free", 99/100, "semantic", none⟩,
       ⟨1, "event", "m linked", 9/10, "graph", some "KNOWS"⟩] := by
    norm_num [Retr.applyStructuralRow]
  have hcand : Retr.candidates Fix.r4cos Fix.zeroRatio Fix.r4st "alek zz" 10 1 =
      [⟨2, "fact", "m free", 99/100, "semantic", none⟩,
       ⟨1, "event", "m linked", 9/10, "graph", some "KNOWS"⟩] := by
    simp only [Retr.candidates, hdet, hsem, hrows, List.foldl_cons, List.foldl_nil, happ]
  have hsort : Retr.sortedTopK Fix.r4cos Fix.zeroRatio Fix.r4st "alek zz" 10 1 =
      [⟨2, "fact", "m free", 99/100, "semantic", none⟩] := by
    norm_num [Retr.sortedTopK, hcand, List.insertionSort, List.orderedInsert, Retr.candOrder]
  refine ⟨hdet, by decide, hsort, ?_⟩
  rintro ⟨c, hcm, l, hlm, hl1, hl2⟩
  rw [hsort, List.mem_singleton] at hcm
  subst hcm
  have hlm2 : l = ⟨1, 1, "KNOWS"⟩ := by simpa [Fix.r4st] using hlm
  subst hlm2
  exact absurd hl1 (by decide)

/-- C4 amended: for every query whose first exact person match (in
record order) is p, where p has at least one linked memory and
top_k >= 1, retrieval detects p, and at least one memory linked to p
appears in the top-k output PROVIDED at most top_k candidates reach
merged score 0.9 — a higher-scoring unlinked semantic candidate set can
push every linked memory out of the top-k, so the unconditional claim
fails. -/
theorem c4_entity_priority_amended (cos : Nat → Nat → Score) (ratio : String → String → Score)
    (st : Retr.Store) (msg : String) (msgEmb : Nat) (k : Nat) (p : Retr.PersonR)
    (hfind : st.persons.find? (Retr.exactMatchPerson (Retr._extract_words_from_message msg)) =
      some p)
    (hlinked : Retr.subRowsUnsorted st p.pid ≠ [])
    (hk : 1 ≤ k)
    (hcount : (Retr.candidates cos ratio st msg msgEmb k).countP
        (fun c => decide ((9 : Score)/10 ≤ c.score)) ≤ k) :
    Retr._detect_entity_hybrid cos ratio st.persons msg msgEmb = some p.pid ∧
    ∃ c ∈ Retr.sortedTopK cos ratio st msg msgEmb k,
      ∃ l ∈ st.links, l.mem = c.eid ∧ l.person = p.pid := by
  have hdet := retr_detect_exact cos ratio st.persons msg msgEmb p hfind
  have hc4 : Retr.candidates cos ratio st msg msgEmb k =
      (Retr._get_entity_subgraph st p.pid (k * 2)).foldl Retr.applyStructuralRow
        (Retr.semanticCands cos st msgEmb) := by
    simp only [Retr.candidates]
    rw [hdet]
  have hne : Retr._get_entity_subgraph st p.pid (k * 2) ≠ [] :=
    retr_subgraph_ne st p.pid (k * 2) hlinked (by omega)
  obtain ⟨row, hrow⟩ := List.exists_mem_of_ne_nil _ hne
  obtain ⟨c, hcmem0, hceid, hcge⟩ :=
    retr_fold_ge _ (Retr.semanticCands cos st msgEmb) row hrow
  have hcmem : c ∈ Retr.candidates cos ratio st msg msgEmb k := by
    rw [hc4]
    exact hcmem0
  have hperm := List.perm_insertionSort Retr.candOrder
    (Retr.candidates cos ratio st msg msgEmb k)
  have hcL : c ∈ List.insertionSort Retr.candOrder (Retr.candidates cos ratio st msg msgEmb k) :=
    hperm.mem_iff.mpr hcmem
  have hsorted := List.sorted_insertionSort Retr.candOrder
    (Retr.candidates cos ratio st msg msgEmb k)
  have htake := retr_sorted_take (9/10) _ hsorted c hcL hcge
  have hcount2 : (List.insertionSort Retr.candOrder
      (Retr.candidates cos ratio st msg msgEmb k)).countP
      (fun x => decide ((9 : Score)/10 ≤ x.score)) ≤ k := by
    rw [hperm.countP_eq]
    exact hcount
  have hctop : c ∈ Retr.sortedTopK cos ratio st msg msgEmb k := by
    unfold Retr.sortedTopK
    exact retr_take_mono hcount2 htake
  obtain ⟨l, hlm, hl1, hl2⟩ :=
    retr_row_link st p.pid row (retr_subgraph_sub st p.pid (k * 2) row hrow)
  exact ⟨hdet, c, hctop, l, hlm, by rw [hl1, hceid], hl2⟩

/-- C4 witness: the amended theorem applied to a store where "alek" has
one linked memory and no competing candidates: the linked memory is the
sole (structural, score 0.9) candidate and fills the top-1 output. -/
theorem c4_witness :
    (Fix.r4wst.persons.find?
      (Retr.exactMatchPerson (Retr._extract_words_from_message "alek zz")) =
        some ⟨1, "alek", [], none⟩) ∧
    Retr.subRowsUnsorted Fix.r4wst 1 ≠ [] ∧
    (Retr.candidates Fix.zeroCos Fix.zeroRatio Fix.r4wst "alek zz" 10 1).countP
        (fun c => decide ((9 : Score)/10 ≤ c.score)) ≤ 1 ∧
    (Retr._detect_entity_hybrid Fix.zeroCos Fix.zeroRatio Fix.r4wst.persons "alek zz" 10 =
        some 1 ∧
      ∃ c ∈ Retr.sortedTopK Fix.zeroCos Fix.zeroRatio Fix.r4wst "alek zz" 10 1,
        ∃ l ∈ Fix.r4wst.links, l.mem = c.eid ∧ l.person = 1) := by
  have hfind : Fix.r4wst.persons.find?
      (Retr.exactMatchPerson (Retr._extract_words_from_message "alek zz")) =
      some ⟨1, "alek", [], none⟩ := by decide
  have hlinked : Retr.subRowsUnsorted Fix.r4wst 1 ≠ [] := by decide
  have hdet : Retr._detect_entity_hybrid Fix.zeroCos Fix.zeroRatio Fix.r4wst.persons
      "alek zz" 10 = some 1 := by decide
  have hsem : Retr.semanticCands Fix.zeroCos Fix.r4wst 10 = [] := by
    norm_num [Retr.semanticCands, Fix.r4wst, Fix.zeroCos, List.filterMap]
  have hrows : Retr._get_entity_subgraph Fix.r4wst 1 (1 * 2) =
      [⟨1, "event", "m linked", "KNOWS", 1, 1⟩] := rfl
  have happ : Retr.applyStructuralRow ([] : List Retr.Cand)
      ⟨1, "event", "m linked", "KNOWS", 1, 1⟩ =
      [⟨1, "event", "m linked", 9/10, "graph", some "KNOWS"⟩] := by
    norm_num [Retr.applyStructuralRow]
  have hcand : Retr.candidates Fix.zeroCos Fix.zeroRatio Fix.r4wst "alek zz" 10 1 =
      [⟨1, "event", "m linked", 9/10, "graph", some "KNOWS"⟩] := by
    simp only [Retr.candidates, hdet, hsem, hrows, List.foldl_cons, List.foldl_nil, happ]
  have hcount : (Retr.candidates Fix.zeroCos Fix.zeroRatio Fix.r4wst "alek zz" 10 1).countP
      (fun c => decide ((9 : Score)/10 ≤ c.score)) ≤ 1 := by
    rw [hcand]
    norm_num [List.countP_cons]
  exact ⟨hfind, hlinked, hcount,
    c4_entity_priority_amended Fix.zeroCos Fix.zeroRatio Fix.r4wst "alek zz" 10 1
      ⟨1, "alek", [], none⟩ hfind hlinked (le_refl 1) hcount⟩

/-! ### C9 -/

/-- C9 counterexample: with person "ola" detected, retrieve(q, 1)
returns the most important linked memory (eid 1), but retrieve(q, 2)
starts with memory eid 3 — a semantic hit that only enters the larger
subgraph fetch (limit 2k) at k = 2 and is boosted to 0.95 there — so
retrieve(q, 1) is not a prefix of retrieve(q, 2). -/
theorem c9_counterexample :
    (Retr.sortedTopK Fix.r9cos Fix.zeroRatio Fix.r9st "ola hello" 10 1).map Retr.Cand.eid =
      [1] ∧
    (Retr.sortedTopK Fix.r9cos Fix.zeroRatio Fix.r9st "ola hello" 10 2).map Retr.Cand.eid =
      [3, 1] ∧
    ¬ (Retr.sortedTopK Fix.r9cos Fix.zeroRatio Fix.r9st "ola hello" 10 1 <+:
       Retr.sortedTopK Fix.r9cos Fix.zeroRatio Fix.r9st "ola hello" 10 2) := by
  have hdet : Retr._detect_entity_hybrid Fix.r9cos Fix.zeroRatio Fix.r9st.persons
      "ola hello" 10 = some 1 := by decide
  have hsem : Retr.semanticCands Fix.r9cos Fix.r9st 10 =
      [⟨3, "event", "e three", 3/5, "semantic", none⟩,
       ⟨4, "fact", "free", 4/5, "semantic", none⟩] := by
    norm_num [Retr.semanticCands, Fix.r9st, Fix.r9cos, List.filterMap]
  have hrows1 : Retr._get_entity_subgraph Fix.r9st 1 (1 * 2) =
      [⟨1, "event", "e one", "R", 3, 0⟩, ⟨2, "event", "e two", "R", 2, 0⟩] := by
    norm_num [Retr._get_entity_subgraph, Retr.subRowsUnsorted, List.filterMap, List.find?,
      List.insertionSort, List.orderedInsert, Retr.subRowOrder, Fix.r9st]
  have hrows2 : Retr._get_entity_subgraph Fix.r9st 1 (2 * 2) =
      [⟨1, "event", "e one", "R", 3, 0⟩, ⟨2, "event", "e two", "R", 2, 0⟩,
       ⟨3, "event", "e three", "R", 1, 0⟩] := by
    norm_num [Retr._get_entity_subgraph, Retr.subRowsUnsorted, List.filterMap, List.find?,
      List.insertionSort, List.orderedInsert, Retr.subRowOrder, Fix.r9st]
  have happa : Retr.applyStructuralRow
      [⟨3, "event", "e three", 3/5, "semantic", none⟩,
       ⟨4, "fact", "free", 4/5, "semantic", none⟩] ⟨1, "event", "e one", "R", 3, 0⟩ =
      [⟨3, "event", "e three", 3/5, "semantic", none⟩,
       ⟨4, "fact", "free", 4/5, "semantic", none⟩,
       ⟨1, "event", "e one", 9/10, "graph", some "R"⟩] := by
    norm_num [Retr.applyStructuralRow]
  have happb : Retr.applyStructuralRow
      [⟨3, "event", "e three", 3/5, "semantic", none⟩,
       ⟨4, "fact", "free", 4/5, "semantic", none⟩,
       ⟨1, "event", "e one", 9/10, "graph", some "R"⟩] ⟨2, "event", "e two", "R", 2, 0⟩ =
      [⟨3, "event", "e three", 3/5, "semantic", none⟩,
       ⟨4, "fact", "free", 4/5, "semantic", none⟩,
       ⟨1, "event", "e one", 9/10, "graph", some "R"⟩,
       ⟨2, "event", "e two", 9/10, "graph", some "R"⟩] := by
    norm_num [Retr.applyStructuralRow]
  have happc : Retr.applyStructuralRow
      [⟨3, "event", "e three", 3/5, "semantic", none⟩,
       ⟨4, "fact", "free", 4/5, "semantic", none⟩,
       ⟨1, "event", "e one", 9/10, "graph", some "R"⟩,
       ⟨2, "event", "e two", 9/10, "graph", some "R"⟩] ⟨3, "event", "e three", "R", 1, 0⟩ =
      [⟨3, "event", "e three", 19/20, "semantic", some "R"⟩,
       ⟨4, "fact", "free", 4/5, "semantic", none⟩,
       ⟨1, "event", "e one", 9/10, "graph", some "R"⟩,
       ⟨2, "event", "e two", 9/10, "graph", some "R"⟩] := by
    norm_num [Retr.applyStructuralRow, max_def]
  have hcand1 : Retr.candidates Fix.r9cos Fix.zeroRatio Fix.r9st "ola hello" 10 1 =
      [⟨3, "event", "e three", 3/5, "semantic", none⟩,
       ⟨4, "fact", "free", 4/5, "semantic", none⟩,
       ⟨1, "event", "e one", 9/10, "graph", some "R"⟩,
       ⟨2, "event", "e two", 9/10, "graph", some "R"⟩] := by
    simp only [Retr.candidates, hdet, hsem, hrows1, List.foldl_cons, List.foldl_nil,
      happa, happb]
  have hcand2 : Retr.candidates Fix.r9cos Fix.zeroRatio Fix.r9st "ola hello" 10 2 =
      [⟨3, "event", "e three", 19/20, "semantic", some "R"⟩,
       ⟨4, "fact", "free", 4/5, "semantic", none⟩,
       ⟨1, "event", "e one", 9/10, "graph", some "R"⟩,
       ⟨2, "event", "e two", 9/10, "graph", some "R"⟩] := by
    simp only [Retr.candidates, hdet, hsem, hrows2, List.foldl_cons, List.foldl_nil,
      happa, happb, happc]
  have hsort1 : Retr.sortedTopK Fix.r9cos Fix.zeroRatio Fix.r9st "ola hello" 10 1 =
      [⟨1, "event", "e one", 9/10, "graph", some "R"⟩] := by
    norm_num [Retr.sortedTopK, hcand1, List.insertionSort, List.orderedInsert, Retr.candOrder]
  have hsort2 : Retr.sortedTopK Fix.r9cos Fix.zeroRatio Fix.r9st "ola hello" 10 2 =
      [⟨3, "event", "e three", 19/20, "semantic", some "R"⟩,
       ⟨1, "event", "e one", 9/10, "graph", some "R"⟩] := by
    norm_num [Retr.sortedTopK, hcand2, List.insertionSort, List.orderedInsert, Retr.candOrder]
  refine ⟨by rw [hsort1]; rfl, by rw [hsort2]; rfl, ?_⟩
  rintro ⟨t, ht⟩
  have hm := congrArg (List.map Retr.Cand.eid) ht
  rw [List.map_append, hsort1, hsort2] at hm
  simp at hm

/-- C9 amended: when no entity is detected the candidate set does not
depend on top_k, so retrieve(q, k) is a prefix of retrieve(q, k+1) in
score order (the ordering is the stable descending sort, deterministic
given identical inputs, with equal scores kept in dict insertion order
— semantic entries before graph-only entries, not the other way
around); when an entity is detected the prefix property can fail,
because the subgraph fetch size 2*top_k and its boosts depend on
top_k. -/
theorem c9_monotonicity_amended (cos : Nat → Nat → Score) (ratio : String → String → Score)
    (st : Retr.Store) (msg : String) (msgEmb : Nat) (k : Nat)
    (hnone : Retr._detect_entity_hybrid cos ratio st.persons msg msgEmb = none) :
    Retr.sortedTopK cos ratio st msg msgEmb k <+:
      Retr.sortedTopK cos ratio st msg msgEmb (k + 1) := by
  have hc : ∀ j, Retr.candidates cos ratio st msg msgEmb j =
      Retr.semanticCands cos st msgEmb := by
    intro j
    simp only [Retr.candidates]
    rw [hnone]
  unfold Retr.sortedTopK
  rw [hc k, hc (k + 1)]
  have e : (List.insertionSort Retr.candOrder (Retr.semanticCands cos st msgEmb)).take k =
      ((List.insertionSort Retr.candOrder (Retr.semanticCands cos st msgEmb)).take (k + 1)).take
        k := by
    rw [List.take_take, Nat.min_eq_left (Nat.le_succ k)]
  rw [e]
  exact List.take_prefix _ _

/-- C9 witness: the amended theorem applied to a store whose single
person "bob" does not match the query "zzz" (no exact word, no fuzzy
hit, no embedding), so detection yields none and retrieve(q, 1) is a
prefix of retrieve(q, 2). -/
theorem c9_witness :
    Retr._detect_entity_hybrid Fix.zeroCos Fix.zeroRatio Fix.r9wst.persons "zzz" 10 = none ∧
    (Retr.sortedTopK Fix.zeroCos Fix.zeroRatio Fix.r9wst "zzz" 10 1 <+:
      Retr.sortedTopK Fix.zeroCos Fix.zeroRatio Fix.r9wst "zzz" 10 2) := by
  have hw : Retr._extract_words_from_message "zzz" = ["zzz"] := by decide
  have hfindn : Fix.r9wst.persons.find? (Retr.exactMatchPerson ["zzz"]) = none := by decide
  have hfuzz : Retr.fuzzyBest Fix.zeroRatio Fix.r9wst.persons ["zzz"] = (0, none) := by
    norm_num [Retr.fuzzyBest, Retr.allNames, Fix.zeroRatio, Fix.r9wst, List.foldl]
  have hemb : Retr.embBest Fix.zeroCos 10 Fix.r9wst.persons = (0, none) := rfl
  have hnone : Retr._detect_entity_hybrid Fix.zeroCos Fix.zeroRatio Fix.r9wst.persons
      "zzz" 10 = none := by
    simp only [Retr._detect_entity_hybrid, hw, hfindn, hfuzz, hemb]
    norm_num [Fix.r9wst]
  exact ⟨hnone,
    c9_monotonicity_amended Fix.zeroCos Fix.zeroRatio Fix.r9wst "zzz" 10 1 hnone⟩

/-! ### Helpers: confirmation broker -/

/-- Helper: creating the pending entry, writing the result and removing
both entries restores the broker exactly, provided the id was not
already present (scoped acquisition). -/
theorem broker_cleanup (b0 : Broker.BrokerSt) (id : String) (v : Bool)
    (hp : id ∉ b0.pending) (hr : ∀ r ∈ b0.results, r.1 ≠ id) :
    Broker.removeEntries id (Broker.setResult id v (Broker.addPending id b0)) = b0 := by
  obtain ⟨pend, res⟩ := b0
  simp only [Broker.addPending, Broker.setResult, Broker.removeEntries, Broker.BrokerSt.mk.injEq]
  constructor
  · rw [List.erase_append_right _ hp, List.erase_cons_head, List.append_nil]
  · rw [List.filter_append]
    have h1 : res.filter (fun r => r.1 != id) = res :=
      List.filter_eq_self.mpr (fun r hrm => bne_iff_ne.mpr (hr r hrm))
    have h2 : ([(id, v)] : List (String × Bool)).filter (fun r => r.1 != id) = [] := by
      simp
    rw [h1, h2, List.append_nil]

/-- Helper: a turn touches only the ids of its own calls: foreign ids
get no confirmation-required and no closing events. -/
theorem broker_ids (env : String → Broker.Decision) :
    ∀ (calls : List Broker.ToolCall) (b0 : Broker.BrokerSt) (id : String),
      id ∉ calls.map Broker.ToolCall.id →
      Broker.countConfReq (Broker.runTurn env b0 calls).1 id = 0 ∧
      Broker.countClosed (Broker.runTurn env b0 calls).1 id = 0 := by
  intro calls
  induction calls with
  | nil =>
    intro b0 id _
    constructor <;> rfl
  | cons tc rest ih =>
    intro b0 id hid
    simp only [List.map_cons, List.mem_cons] at hid
    push_neg at hid
    have hne : Broker.Ev.confReq id ≠ Broker.Ev.confReq tc.id := by
      intro h
      injection h with h2
      exact hid.1 h2
    by_cases hreq : Broker.requires_confirmation tc.name = true
    · cases henv : env tc.id with
      | approve =>
        have hrun : Broker.runTurn env b0 (tc :: rest) =
            ([.toolStart tc.id, .confReq tc.id, .toolEnd tc.id] ++
              (Broker.runTurn env (Broker.removeEntries tc.id
                (Broker.setResult tc.id true (Broker.addPending tc.id b0))) rest).1,
             (Broker.runTurn env (Broker.removeEntries tc.id
                (Broker.setResult tc.id true (Broker.addPending tc.id b0))) rest).2) := by
          simp only [Broker.runTurn, hreq, if_true, henv]
        rw [hrun]
        have := ih (Broker.removeEntries tc.id
          (Broker.setResult tc.id true (Broker.addPending tc.id b0))) id hid.2
        unfold Broker.countConfReq Broker.countClosed at this ⊢
        rw [List.countP_append, List.countP_append]
        simp only [List.countP_cons, List.countP_nil, beq_iff_eq]
        simp [this.1, this.2, hid.1, Ne.symm hid.1]
      | deny =>
        have hrun : Broker.runTurn env b0 (tc :: rest) =
            ([.toolStart tc.id, .confReq tc.id, .toolDenied tc.id] ++
              (Broker.runTurn env (Broker.removeEntries tc.id
                (Broker.setResult tc.id false (Broker.addPending tc.id b0))) rest).1,
             (Broker.runTurn env (Broker.removeEntries tc.id
                (Broker.setResult tc.id false (Broker.addPending tc.id b0))) rest).2) := by
          simp only [Broker.runTurn, hreq, if_true, henv]
        rw [hrun]
        have := ih (Broker.removeEntries tc.id
          (Broker.setResult tc.id false (Broker.addPending tc.id b0))) id hid.2
        unfold Broker.countConfReq Broker.countClosed at this ⊢
        rw [List.countP_append, List.countP_append]
        simp only [List.countP_cons, List.countP_nil, beq_iff_eq]
        simp [this.1, this.2, hid.1, Ne.symm hid.1]
      | cancel =>
        have hrun : Broker.runTurn env b0 (tc :: rest) =
            ([.toolStart tc.id, .confReq tc.id, .toolDenied tc.id],
             Broker.removeEntries tc.id
               (Broker.setResult tc.id false (Broker.addPending tc.id b0))) := by
          simp only [Broker.runTurn, hreq, if_true, henv]
        rw [hrun]
        unfold Broker.countConfReq Broker.countClosed
        simp only [List.countP_cons, List.countP_nil, beq_iff_eq]
        simp [hid.1, Ne.symm hid.1]
    · have hreq2 : Broker.requires_confirmation tc.name = false := by
        rwa [Bool.not_eq_true] at hreq
      have hrun : Broker.runTurn env b0 (tc :: rest) =
          ([.toolStart tc.id, .toolEnd tc.id] ++ (Broker.runTurn env b0 rest).1,
           (Broker.runTurn env b0 rest).2) := by
        simp only [Broker.runTurn, hreq2, Bool.false_eq_true, if_false]
      rw [hrun]
      have := ih b0 id hid.2
      unfold Broker.countConfReq Broker.countClosed at this ⊢
      rw [List.countP_append, List.countP_append]
      simp only [List.countP_cons, List.countP_nil, beq_iff_eq]
      simp [this.1, this.2, hid.1, Ne.symm hid.1]

/-- Helper: a toolStart never changes the scan state. -/
theorem broker_scan_start (opens : List String) (id : String) (evs : List Broker.Ev) :
    Broker.scanConf opens (Broker.Ev.toolStart id :: evs) = Broker.scanConf opens evs := rfl

/-- Helper: a complete gated block — toolStart, confirmation required,
then its tool_end or tool_denied — leaves the scan state empty again. -/
theorem broker_scan_block (id : String) (evs : List Broker.Ev) (cl : Broker.Ev)
    (hcl : cl = Broker.Ev.toolEnd id ∨ cl = Broker.Ev.toolDenied id) :
    Broker.scanConf [] (Broker.Ev.toolStart id :: Broker.Ev.confReq id :: cl :: evs) =
      Broker.scanConf [] evs := by
  have h2 : Broker.scanConf [] (Broker.Ev.confReq id :: cl :: evs) =
      if id ∈ ([] : List String) then false else Broker.scanConf [id] (cl :: evs) := rfl
  rw [broker_scan_start, h2, if_neg (List.not_mem_nil id)]
  rcases hcl with h | h <;> subst h
  · have h3 : Broker.scanConf [id] (Broker.Ev.toolEnd id :: evs) =
        Broker.scanConf ([id].erase id) evs := rfl
    rw [h3, List.erase_cons_head]
  · have h3 : Broker.scanConf [id] (Broker.Ev.toolDenied id :: evs) =
        Broker.scanConf ([id].erase id) evs := rfl
    rw [h3, List.erase_cons_head]

/-- Helper: an ungated block — toolStart then tool_end — never touches
the scan state. -/
theorem broker_scan_plain (id : String) (evs : List Broker.Ev) :
    Broker.scanConf [] (Broker.Ev.toolStart id :: Broker.Ev.toolEnd id :: evs) =
      Broker.scanConf [] evs := rfl

/-- Helper: event counts contributed by one gated block. -/
theorem broker_block_counts (a : String) (cl : Broker.Ev)
    (hcl : cl = Broker.Ev.toolEnd a ∨ cl = Broker.Ev.toolDenied a)
    (evs : List Broker.Ev) (id : String) :
    Broker.countConfReq (Broker.Ev.toolStart a :: Broker.Ev.confReq a :: cl :: evs) id =
      (if id = a then 1 else 0) + Broker.countConfReq evs id ∧
    Broker.countClosed (Broker.Ev.toolStart a :: Broker.Ev.confReq a :: cl :: evs) id =
      (if id = a then 1 else 0) + Broker.countClosed evs id := by
  rcases hcl with h | h <;> subst h <;>
    (unfold Broker.countConfReq Broker.countClosed
     simp only [List.countP_cons, beq_iff_eq, Bool.or_eq_true]
     by_cases hid : id = a
     · subst hid
       simp
       try omega
     · simp [hid, Ne.symm hid]
       try omega)

/-- Helper: event counts contributed by one ungated block. -/
theorem broker_plain_counts (a : String) (evs : List Broker.Ev) (id : String) :
    Broker.countConfReq (Broker.Ev.toolStart a :: Broker.Ev.toolEnd a :: evs) id =
      Broker.countConfReq evs id ∧
    Broker.countClosed (Broker.Ev.toolStart a :: Broker.Ev.toolEnd a :: evs) id =
      (if id = a then 1 else 0) + Broker.countClosed evs id := by
  unfold Broker.countConfReq Broker.countClosed
  simp only [List.countP_cons, beq_iff_eq, Bool.or_eq_true]
  by_cases hid : id = a
  · subst hid
    simp
    try omega
  · simp [hid, Ne.symm hid]
    try omega

/-- Helper: full specification of one turn of the gated tool loop under
the broker model: the broker is restored exactly, the scan invariant
holds, and each id gets at most one confirmation request, answered by
exactly one tool_end or tool_denied. -/
theorem broker_run_spec (env : String → Broker.Decision) :
    ∀ (calls : List Broker.ToolCall) (b0 : Broker.BrokerSt),
      (calls.map Broker.ToolCall.id).Nodup →
      (∀ tc ∈ calls, tc.id ∉ b0.pending) →
      (∀ tc ∈ calls, ∀ r ∈ b0.results, r.1 ≠ tc.id) →
      (Broker.runTurn env b0 calls).2 = b0 ∧
      Broker.confirmationComplete (Broker.runTurn env b0 calls).1 = true ∧
      (∀ id, Broker.countConfReq (Broker.runTurn env b0 calls).1 id ≤ 1 ∧
        (0 < Broker.countConfReq (Broker.runTurn env b0 calls).1 id →
          Broker.countClosed (Broker.runTurn env b0 calls).1 id = 1)) := by
  intro calls
  induction calls with
  | nil =>
    intro b0 _ _ _
    refine ⟨rfl, rfl, ?_⟩
    intro id
    constructor
    · show (0 : Nat) ≤ 1
      omega
    · intro h
      have e : (Broker.runTurn env b0 []).1 = [] := rfl
      rw [e] at h
      simp [Broker.countConfReq] at h
  | cons tc rest ih =>
    intro b0 hnodup hpend hres
    simp only [List.map_cons, List.nodup_cons] at hnodup
    have hcl : ∀ v, Broker.removeEntries tc.id
        (Broker.setResult tc.id v (Broker.addPending tc.id b0)) = b0 := fun v =>
      broker_cleanup b0 tc.id v (hpend tc (List.mem_cons_self tc rest))
        (fun r hr => hres tc (List.mem_cons_self tc rest) r hr)
    have hpend2 : ∀ tc2 ∈ rest, tc2.id ∉ b0.pending :=
      fun tc2 h => hpend tc2 (List.mem_cons_of_mem _ h)
    have hres2 : ∀ tc2 ∈ rest, ∀ r ∈ b0.results, r.1 ≠ tc2.id :=
      fun tc2 h => hres tc2 (List.mem_cons_of_mem _ h)
    obtain ⟨ihb, ihscan, ihcount⟩ := ih b0 hnodup.2 hpend2 hres2
    have hforeign := broker_ids env rest b0 tc.id hnodup.1
    by_cases hreq : Broker.requires_confirmation tc.name = true
    · cases henv : env tc.id with
      | approve =>
        have hrun : Broker.runTurn env b0 (tc :: rest) =
            (Broker.Ev.toolStart tc.id :: Broker.Ev.confReq tc.id ::
              Broker.Ev.toolEnd tc.id :: (Broker.runTurn env b0 rest).1,
             (Broker.runTurn env b0 rest).2) := by
          simp only [Broker.runTurn, hreq, if_true, henv, hcl true, List.cons_append,
            List.nil_append]
        rw [hrun]
        refine ⟨ihb, ?_, ?_⟩
        · unfold Broker.confirmationComplete at ihscan ⊢
          rw [broker_scan_block tc.id _ _ (Or.inl rfl)]
          exact ihscan
        · intro id
          obtain ⟨hcr, hcc⟩ := broker_block_counts tc.id _ (Or.inl rfl)
            (Broker.runTurn env b0 rest).1 id
          rw [hcr, hcc]
          by_cases hid : id = tc.id
          · subst hid
            rw [if_pos rfl]
            rw [hforeign.1, hforeign.2]
            exact ⟨by omega, fun _ => by omega⟩
          · rw [if_neg hid]
            obtain ⟨hc1, hc2⟩ := ihcount id
            exact ⟨by omega, fun h => by rw [hc2 (by omega)]⟩
      | deny =>
        have hrun : Broker.runTurn env b0 (tc :: rest) =
            (Broker.Ev.toolStart tc.id :: Broker.Ev.confReq tc.id ::
              Broker.Ev.toolDenied tc.id :: (Broker.runTurn env b0 rest).1,
             (Broker.runTurn env b0 rest).2) := by
          simp only [Broker.runTurn, hreq, if_true, henv, hcl false, List.cons_append,
            List.nil_append]
        rw [hrun]
        refine ⟨ihb, ?_, ?_⟩
        · unfold Broker.confirmationComplete at ihscan ⊢
          rw [broker_scan_block tc.id _ _ (Or.inr rfl)]
          exact ihscan
        · intro id
          obtain ⟨hcr, hcc⟩ := broker_block_counts tc.id _ (Or.inr rfl)
            (Broker.runTurn env b0 rest).1 id
          rw [hcr, hcc]
          by_cases hid : id = tc.id
          · subst hid
            rw [if_pos rfl]
            rw [hforeign.1, hforeign.2]
            exact ⟨by omega, fun _ => by omega⟩
          · rw [if_neg hid]
            obtain ⟨hc1, hc2⟩ := ihcount id
            exact ⟨by omega, fun h => by rw [hc2 (by omega)]⟩
      | cancel =>
        have hrun : Broker.runTurn env b0 (tc :: rest) =
            ([Broker.Ev.toolStart tc.id, Broker.Ev.confReq tc.id,
              Broker.Ev.toolDenied tc.id], b0) := by
          simp only [Broker.runTurn, hreq, if_true, henv, hcl false]
        rw [hrun]
        refine ⟨rfl, ?_, ?_⟩
        · unfold Broker.confirmationComplete
          rw [show ([Broker.Ev.toolStart tc.id, Broker.Ev.confReq tc.id,
            Broker.Ev.toolDenied tc.id] : List Broker.Ev) =
            Broker.Ev.toolStart tc.id :: Broker.Ev.confReq tc.id ::
              Broker.Ev.toolDenied tc.id :: [] from rfl]
          rw [broker_scan_block tc.id _ _ (Or.inr rfl)]
          rfl
        · intro id
          obtain ⟨hcr, hcc⟩ := broker_block_counts tc.id _ (Or.inr rfl) [] id
          rw [hcr, hcc]
          have hz1 : Broker.countConfReq [] id = 0 := rfl
          have hz2 : Broker.countClosed [] id = 0 := rfl
          rw [hz1, hz2]
          by_cases hid : id = tc.id
          · subst hid
            rw [if_pos rfl]
            exact ⟨by omega, fun _ => by omega⟩
          · rw [if_neg hid]
            exact ⟨by omega, fun h => by omega⟩
    · have hreq2 : Broker.requires_confirmation tc.name = false := by
        rwa [Bool.not_eq_true] at hreq
      have hrun : Broker.runTurn env b0 (tc :: rest) =
          (Broker.Ev.toolStart tc.id :: Broker.Ev.toolEnd tc.id ::
            (Broker.runTurn env b0 rest).1,
           (Broker.runTurn env b0 rest).2) := by
        simp only [Broker.runTurn, hreq2, Bool.false_eq_true, if_false, List.cons_append,
          List.nil_append]
      rw [hrun]
      refine ⟨ihb, ?_, ?_⟩
      · unfold Broker.confirmationComplete at ihscan ⊢
        rw [broker_scan_plain]
        exact ihscan
      · intro id
        obtain ⟨hcr, hcc⟩ := broker_plain_counts tc.id (Broker.runTurn env b0 rest).1 id
        rw [hcr, hcc]
        by_cases hid : id = tc.id
        · subst hid
          rw [if_pos rfl]
          rw [hforeign.1]
          exact ⟨by omega, fun h => by omega⟩
        · rw [if_neg hid]
          obtain ⟨hc1, hc2⟩ := ihcount id
          exact ⟨hc1, fun h => by rw [hc2 h]⟩

/-! ### C2 -/

/-- C2: confirmation completeness for the spec-modelled broker and
gated tool loop (the broker implementation is absent from src/; see the
Broker namespace header): within a turn every emitted
tool_confirmation_required for a tool_call_id is answered before the
turn ends (the scan invariant) by exactly one tool_end or tool_denied
for that id, on every exit path — approval, denial, and cancellation
mid-confirmation — and the broker's pending and results tables hold no
entry for any of the turn's ids after the turn terminates. -/
theorem c2_confirmation_completeness (env : String → Broker.Decision)
    (b0 : Broker.BrokerSt) (calls : List Broker.ToolCall)
    (hnodup : (calls.map Broker.ToolCall.id).Nodup)
    (hpend : ∀ tc ∈ calls, tc.id ∉ b0.pending)
    (hres : ∀ tc ∈ calls, ∀ r ∈ b0.results, r.1 ≠ tc.id) :
    Broker.confirmationComplete (Broker.runTurn env b0 calls).1 = true ∧
    (Broker.runTurn env b0 calls).2 = b0 ∧
    (∀ tc ∈ calls, tc.id ∉ (Broker.runTurn env b0 calls).2.pending ∧
      ∀ r ∈ (Broker.runTurn env b0 calls).2.results, r.1 ≠ tc.id) ∧
    (∀ id, Broker.countConfReq (Broker.runTurn env b0 calls).1 id ≤ 1 ∧
      (0 < Broker.countConfReq (Broker.runTurn env b0 calls).1 id →
        Broker.countClosed (Broker.runTurn env b0 calls).1 id = 1)) := by
  obtain ⟨hb, hscan, hcount⟩ := broker_run_spec env calls b0 hnodup hpend hres
  refine ⟨hscan, hb, ?_, hcount⟩
  intro tc htc
  constructor
  · rw [hb]
    exact hpend tc htc
  · rw [hb]
    exact hres tc htc

/-- C2 witness: a turn with an approved add_fact, an ungated
search_web, and a denied delete_memory on an empty broker. -/
theorem c2_witness :
    ((Fix.brokerCalls.map Broker.ToolCall.id).Nodup) ∧
    (∀ tc ∈ Fix.brokerCalls, tc.id ∉ (⟨[], []⟩ : Broker.BrokerSt).pending) ∧
    (∀ tc ∈ Fix.brokerCalls, ∀ r ∈ (⟨[], []⟩ : Broker.BrokerSt).results, r.1 ≠ tc.id) ∧
    (Broker.confirmationComplete
        (Broker.runTurn Fix.brokerEnv ⟨[], []⟩ Fix.brokerCalls).1 = true ∧
      (Broker.runTurn Fix.brokerEnv ⟨[], []⟩ Fix.brokerCalls).2 = ⟨[], []⟩ ∧
      (∀ tc ∈ Fix.brokerCalls,
        tc.id ∉ (Broker.runTurn Fix.brokerEnv ⟨[], []⟩ Fix.brokerCalls).2.pending ∧
        ∀ r ∈ (Broker.runTurn Fix.brokerEnv ⟨[], []⟩ Fix.brokerCalls).2.results,
          r.1 ≠ tc.id) ∧
      (∀ id, Broker.countConfReq
          (Broker.runTurn Fix.brokerEnv ⟨[], []⟩ Fix.brokerCalls).1 id ≤ 1 ∧
        (0 < Broker.countConfReq
            (Broker.runTurn Fix.brokerEnv ⟨[], []⟩ Fix.brokerCalls).1 id →
          Broker.countClosed
            (Broker.runTurn Fix.brokerEnv ⟨[], []⟩ Fix.brokerCalls).1 id = 1))) :=
  ⟨by decide, by decide, by decide,
   c2_confirmation_completeness Fix.brokerEnv ⟨[], []⟩ Fix.brokerCalls
     (by decide) (by decide) (by decide)⟩

end RtxChat
